import Mathlib

/-!
Verification development for the NetBox export/import utility
(`netbox_exporter.py`).  Python strings are embedded as lists of
characters, JSON-like dynamic values as the inductive `Val`, and Python
dicts as association lists with unique keys (insertion order preserved,
as CPython guarantees).  Every function is a direct translation of the
corresponding Python function; external collaborators (the HTTP
transport, the `json` parser, the filesystem walk) are parameters.
-/

namespace Netbox

/-- Python strings, embedded as lists of characters. -/
abbrev Str := List Char

/-- Shorthand turning a Lean string literal into an embedded Python string. -/
def strL (s : String) : Str := s.toList

/-- A JSON-like dynamic value, as returned by `response.json()`:
`None`, booleans, integers, strings, lists, and dicts (association
lists in insertion order). -/
inductive Val where
  | null : Val
  | bool (b : Bool) : Val
  | num (n : Int) : Val
  | str (s : Str) : Val
  | arr (elems : List Val) : Val
  | obj (fields : List (Str × Val)) : Val

/-- A Python dict with string keys, in insertion order. -/
abbrev Obj := List (Str × Val)

/-- Python `d[k]` / `k in d` on a dict: first (unique) matching key. -/
def lookup {α : Type} (k : Str) : List (Str × α) → Option α
  | [] => none
  | (k', v) :: rest => if k' = k then some v else lookup k rest

/-- Python `d[k] = v`: update the value in place at the first (unique)
occurrence of the key, otherwise append the new key at the end (CPython
dict semantics). -/
def setKey {α : Type} : List (Str × α) → Str → α → List (Str × α)
  | [], k, v => [(k, v)]
  | p :: rest, k, v => if p.1 = k then (k, v) :: rest else p :: setKey rest k v

/-- Python truthiness of a JSON value (`if ref:`, `filter(None, ...)`). -/
def truthy : Val → Bool
  | .null => false
  | .bool b => b
  | .num n => n != 0
  | .str s => !s.isEmpty
  | .arr l => !l.isEmpty
  | .obj m => !m.isEmpty

/-- Decimal digits of a natural number (fuel-driven, `fuel ≥ n` suffices). -/
def natDigits : Nat → Nat → Str
  | 0, _ => []
  | fuel + 1, n =>
    if n = 0 then [] else natDigits fuel (n / 10) ++ [Char.ofNat (48 + n % 10)]

/-- Python `str(n)` for an integer. -/
def pyStrInt (i : Int) : Str :=
  if i < 0 then '-' :: (if i.natAbs = 0 then ['0'] else natDigits i.natAbs i.natAbs)
  else if i.toNat = 0 then ['0'] else natDigits i.toNat i.toNat

/-- Python `str(v)` for scalar values.  For lists and dicts `str` gives
`repr`-style output; no claim exercises that path, so those cases are
rendered through a simple bracketed rendering declared below
(`pyStrComposite`). -/
def pyStrScalar : Val → Option Str
  | .null => some (strL "None")
  | .bool true => some (strL "True")
  | .bool false => some (strL "False")
  | .num n => some (pyStrInt n)
  | .str s => some s
  | _ => none

mutual

/-- Approximate rendering used only where Python would call `str`/`repr`
on a composite value; no claim depends on its exact text. -/
def pyStrComposite : Val → Str
  | .null => strL "None"
  | .bool true => strL "True"
  | .bool false => strL "False"
  | .num n => pyStrInt n
  | .str s => s
  | .arr l => '[' :: pyStrCompositeList l ++ [']']
  | .obj m => Char.ofNat 123 :: pyStrCompositeFields m ++ [Char.ofNat 125]

def pyStrCompositeList : List Val → Str
  | [] => []
  | [v] => pyStrComposite v
  | v :: rest => pyStrComposite v ++ strL ", " ++ pyStrCompositeList rest

def pyStrCompositeFields : List (Str × Val) → Str
  | [] => []
  | [(k, v)] => k ++ strL ": " ++ pyStrComposite v
  | (k, v) :: rest => k ++ strL ": " ++ pyStrComposite v ++ strL ", " ++ pyStrCompositeFields rest

end

/-- Python `str(v)`: scalar cases exactly, composite cases approximately. -/
def pyStr (v : Val) : Str := (pyStrScalar v).getD (pyStrComposite v)

mutual

/-- `json.dumps` (default separators), used by `_flatten_dict` and
`_save_csv` for list/dict cells.  String escaping covers the common
escapes; no claim depends on escaping of exotic control characters. -/
def jsonDumps : Val → Str
  | .null => strL "null"
  | .bool true => strL "true"
  | .bool false => strL "false"
  | .num n => pyStrInt n
  | .str s => '"' :: jsonEscape s ++ ['"']
  | .arr l => '[' :: jsonDumpsList l ++ [']']
  | .obj m => Char.ofNat 123 :: jsonDumpsFields m ++ [Char.ofNat 125]

def jsonDumpsList : List Val → Str
  | [] => []
  | [v] => jsonDumps v
  | v :: rest => jsonDumps v ++ strL ", " ++ jsonDumpsList rest

def jsonDumpsFields : List (Str × Val) → Str
  | [] => []
  | [(k, v)] => '"' :: jsonEscape k ++ ['"'] ++ strL ": " ++ jsonDumps v
  | (k, v) :: rest =>
    '"' :: jsonEscape k ++ ['"'] ++ strL ": " ++ jsonDumps v ++ strL ", " ++ jsonDumpsFields rest

def jsonEscape : Str → Str
  | [] => []
  | c :: rest =>
    (if c = '"' then ['\\', '"']
     else if c = '\\' then ['\\', '\\']
     else if c = '\n' then ['\\', 'n']
     else if c = '\t' then ['\\', 't']
     else if c = '\r' then ['\\', 'r']
     else [c]) ++ jsonEscape rest

end

/-! ## Reducer: `_extract_ref` and `_clean_object` -/

/-- `NetBoxExporter._extract_ref`: priority order slug, name, id for a
dict; `None` maps to `None`; any other value is returned unchanged.
(`Val.null` plays the role of Python `None`, including a present key
whose value is `None`.) -/
def extract_ref (v : Val) : Val :=
  match v with
  | .null => .null
  | .obj m =>
    match lookup (strL "slug") m with
    | some x => x
    | none =>
      match lookup (strL "name") m with
      | some x => x
      | none =>
        match lookup (strL "id") m with
        | some x => x
        | none => .null
  | v => v

/-- The `remove_fields` set of `_clean_object`. -/
def remove_fields : List Str :=
  [strL "id", strL "url", strL "display", strL "display_url",
   strL "created", strL "last_updated", strL "custom_fields"]

/-- One element of the `tags` list:
`tag.get("slug", tag.get("name", ""))` for dicts, `str(tag)` otherwise. -/
def tagName : Val → Val
  | .obj m =>
    (match lookup (strL "slug") m with
     | some x => x
     | none =>
       match lookup (strL "name") m with
       | some x => x
       | none => .str [])
  | t => .str (pyStr t)

/-- `",".join(...)`. -/
def joinComma : List Str → Str
  | [] => []
  | [s] => s
  | s :: rest => s ++ ',' :: joinComma rest

/-- `",".join(filter(None, tag_names))`.  CPython would raise `TypeError`
when a truthy slug/name is not a string; that unreachable-in-practice
path is rendered with `pyStr` instead.  No claim exercises it. -/
def joinTags (tags : List Val) : Str :=
  joinComma (((tags.map tagName).filter truthy).map pyStr)

/-- `not isinstance(v, (dict, list))`: the value is a primitive
(string, number, boolean or null). -/
def primVal : Val → Bool
  | .obj _ => false
  | .arr _ => false
  | _ => true

/-- The shallow-copy fallback of `_clean_object` for a nested dict with
no extractable reference: keep only primitive-valued keys outside
`remove_fields`. -/
def shallow_copy (m : Obj) : Obj :=
  m.filter (fun p => !(remove_fields.contains p.1) && primVal p.2)

/-- One iteration of the `refs` loop in `_clean_object`'s list branch:
a dict element contributes its extracted reference when that reference
is truthy (`if ref:`), a non-dict element is appended as-is. -/
def ref_of_item : Val → Option Val
  | .obj m => if truthy (extract_ref (.obj m)) then some (extract_ref (.obj m)) else none
  | x => some x

/-- The list branch of `_clean_object`: collect references via
`ref_of_item` and unwrap a singleton result to a bare scalar
(`refs if len(refs) != 1 else refs[0]`). -/
def collapse_refs (l : List Val) : Val :=
  match l.filterMap ref_of_item with
  | [r] => r
  | rs => .arr rs

/-- The body of `_clean_object`'s per-field loop: `none` means the field
is dropped, `some w` that `cleaned[key] = w`. -/
def clean_entry (k : Str) (v : Val) : Option Val :=
  if remove_fields.contains k then none
  else if k = strL "tags" then
    match v with
    | .arr tags => some (.str (joinTags tags))
    | v => some v
  else
    match v with
    | .obj m =>
      match extract_ref (.obj m) with
      | .null => some (.obj (shallow_copy m))
      | ref => some ref
    | .arr l =>
      if !l.isEmpty && (match l.head? with | some (.obj _) => false | _ => true) then
        some (.arr l)
      else some (collapse_refs l)
    | v => some v

/-- `NetBoxExporter._clean_object`: returns the input unchanged beyond
depth 3, otherwise rebuilds the dict field by field.  (The function
never recurses; `depth` is only ever 0 at its call sites.) -/
def clean_object (obj : Obj) (depth : Nat) : Obj :=
  if depth > 3 then obj
  else obj.filterMap (fun p => (clean_entry p.1 p.2).map (fun w => (p.1, w)))

/-- `_clean_object` applied to an arbitrary fetched value: non-dicts are
returned unchanged (`not isinstance(obj, dict)`). -/
def cleanVal (v : Val) : Val :=
  match v with
  | .obj m => .obj (clean_object m 0)
  | v => v

/-! ## Fetcher: `NetBoxExporter._get` (paginated GET with indefinite retry) -/

/-- One transport interaction: either a `requests` exception
(`RequestException`, caught by the `except` clause) or a JSON body. -/
inductive FetchResp where
  | fail : FetchResp
  | body (data : Obj) : FetchResp

/-- The `while True` loop of `_get`, step-indexed by `fuel` (the number
of loop iterations we are willing to observe).  `trans call offset` is
the transport's answer to the `call`-th request at query offset
`offset`.  `none` means the loop has not returned within `fuel`
iterations (on a malformed `results` value CPython would abort with an
uncaught `TypeError`; no claim reaches that case).  A failed request is
retried at the same offset; a page with a truthy `next` advances the
offset by `limit`; a body without a `results` key returns `[data]`. -/
def getLoop (trans : Nat → Nat → FetchResp) (limit : Nat) :
    Nat → Nat → Nat → List Val → Option (List Val)
  | 0, _, _, _ => none
  | fuel + 1, call, offset, acc =>
    match trans call offset with
    | .fail => getLoop trans limit fuel (call + 1) offset acc
    | .body data =>
      match lookup (strL "results") data with
      | some (.arr rs) =>
        if truthy ((lookup (strL "next") data).getD .null) then
          getLoop trans limit fuel (call + 1) (offset + limit) (acc ++ rs)
        else some (acc ++ rs)
      | some _ => none
      | none => some [.obj data]

/-- `_get` observed for `fuel` loop iterations from its initial state. -/
def get_run (trans : Nat → Nat → FetchResp) (limit fuel : Nat) : Option (List Val) :=
  getLoop trans limit fuel 0 0 []

/-- The call to `_get` never returns, whatever number of loop iterations
we observe. -/
def get_diverges (trans : Nat → Nat → FetchResp) (limit : Nat) : Prop :=
  ∀ fuel, get_run trans limit fuel = none

/-- A transport in which every request raises `RequestException`. -/
def alwaysFailTrans : Nat → Nat → FetchResp := fun _ _ => .fail

/-- A transport failing the first `n` requests, then answering one final
page carrying `rs` (no `next` cursor). -/
def failThenPage (n : Nat) (rs : List Val) : Nat → Nat → FetchResp :=
  fun call _ =>
    if call < n then .fail
    else .body [(strL "results", .arr rs), (strL "next", .null)]

/-! ## Export driver: `MODELS_ORDERED`, `export_model`, `export_all` -/

/-- `NetBoxExporter.MODELS_ORDERED`: the static resource catalog, in
dependency order. -/
def MODELS_ORDERED : List (Str × Str) :=
  [(strL "tenancy", strL "tenant-groups"),
   (strL "tenancy", strL "tenants"),
   (strL "tenancy", strL "contact-groups"),
   (strL "tenancy", strL "contact-roles"),
   (strL "tenancy", strL "contacts"),
   (strL "tenancy", strL "contact-assignments"),
   (strL "circuits", strL "providers"),
   (strL "circuits", strL "circuit-types"),
   (strL "circuits", strL "circuits"),
   (strL "circuits", strL "circuit-terminations"),
   (strL "dcim", strL "site-groups"),
   (strL "dcim", strL "sites"),
   (strL "dcim", strL "locations"),
   (strL "dcim", strL "rack-roles"),
   (strL "dcim", strL "racks"),
   (strL "dcim", strL "rack-reservations"),
   (strL "dcim", strL "manufacturers"),
   (strL "dcim", strL "device-types"),
   (strL "dcim", strL "module-types"),
   (strL "dcim", strL "device-roles"),
   (strL "dcim", strL "platforms"),
   (strL "dcim", strL "devices"),
   (strL "dcim", strL "virtual-chassis"),
   (strL "dcim", strL "cables"),
   (strL "dcim", strL "power-panels"),
   (strL "dcim", strL "power-feeds"),
   (strL "ipam", strL "rirs"),
   (strL "ipam", strL "aggregates"),
   (strL "ipam", strL "roles"),
   (strL "ipam", strL "vlan-groups"),
   (strL "ipam", strL "vlans"),
   (strL "ipam", strL "prefixes"),
   (strL "ipam", strL "ip-ranges"),
   (strL "ipam", strL "ip-addresses"),
   (strL "ipam", strL "fhrp-groups"),
   (strL "ipam", strL "services"),
   (strL "virtualization", strL "cluster-types"),
   (strL "virtualization", strL "cluster-groups"),
   (strL "virtualization", strL "clusters"),
   (strL "virtualization", strL "virtual-machines"),
   (strL "virtualization", strL "interfaces"),
   (strL "wireless", strL "wireless-lan-groups"),
   (strL "wireless", strL "wireless-lans"),
   (strL "wireless", strL "wireless-links"),
   (strL "vpn", strL "ike-proposals"),
   (strL "vpn", strL "ike-policies"),
   (strL "vpn", strL "ipsec-proposals"),
   (strL "vpn", strL "ipsec-policies"),
   (strL "vpn", strL "ipsec-profiles"),
   (strL "vpn", strL "tunnels"),
   (strL "vpn", strL "tunnel-terminations"),
   (strL "vpn", strL "l2vpns"),
   (strL "vpn", strL "l2vpn-terminations"),
   (strL "extras", strL "tags"),
   (strL "extras", strL "custom-fields"),
   (strL "extras", strL "custom-links"),
   (strL "extras", strL "export-templates"),
   (strL "extras", strL "saved-filters"),
   (strL "extras", strL "webhooks"),
   (strL "extras", strL "journal-entries"),
   (strL "extras", strL "config-contexts")]

/-- The return value of `export_model` for a non-empty fetch. -/
structure ModelExport where
  endpoint : Str
  count : Nat
  data : List Obj

/-- `NetBoxExporter.export_model`: fetch one collection (the raw objects
a paginated `_get` would deliver), returning `{}` (here `none`) when
nothing was found, and the cleaned objects otherwise. -/
def export_model (fetch : Str × Str → List Obj) (app model : Str) : Option ModelExport :=
  match fetch (app, model) with
  | [] => none
  | results =>
    some { endpoint := app ++ '/' :: model,
           count := (results.map (fun o => clean_object o 0)).length,
           data := results.map (fun o => clean_object o 0) }

/-- The relative path `_save_csv` writes for a given catalog entry
(`app_name/model_name.csv`). -/
def csvPath (app model : Str) : Str := app ++ '/' :: model ++ strL ".csv"

/-- The observable outcome of `export_all`: the aggregate
`full_export.json` content, the total object count, the tabular files
written (in order), and the manifest's `files` list. -/
structure ExportRun where
  full : List (Str × List (Str × ModelExport))
  total : Nat
  written : List Str
  manifestFiles : List Str

/-- One iteration of `export_all`'s loop: an empty export is skipped,
a non-empty one is recorded in the aggregate (keyed by category, then
type), counted, and written as a CSV file. -/
def export_step (fetch : Str × Str → List Obj)
    (st : List (Str × List (Str × ModelExport)) × Nat × List Str)
    (am : Str × Str) :
    List (Str × List (Str × ModelExport)) × Nat × List Str :=
  match export_model fetch am.1 am.2 with
  | none => st
  | some result =>
    (setKey st.1 am.1 (setKey ((lookup am.1 st.1).getD []) am.2 result),
     st.2.1 + result.count,
     st.2.2 ++ [csvPath am.1 am.2])

/-- `NetBoxExporter.export_all`: walk the catalog in order, keep the
non-empty results in the aggregate, write one CSV per non-empty result,
then write `manifest.json` whose `files` list enumerates every catalog
entry (independently of what was written). -/
def export_all (fetch : Str × Str → List Obj) : ExportRun :=
  let fin := MODELS_ORDERED.foldl (export_step fetch) ([], 0, [])
  { full := fin.1, total := fin.2.1, written := fin.2.2,
    manifestFiles := MODELS_ORDERED.map (fun am => csvPath am.1 am.2) }

/-! ## Tabular codec: `_flatten_dict` and `_save_csv` -/

/-- Python `dict(items)`: later duplicate keys overwrite earlier ones in
place (first-occurrence position, last value). -/
def dictOfItems (items : List (Str × Val)) : Obj :=
  items.foldl (fun acc p => setKey acc p.1 p.2) []

/-- The `items` entries `_flatten_dict` emits for one field: a dict
value yields one dot-joined entry per inner key, a list is encoded as
JSON text, anything else passes through. -/
def flat_items (p : Str × Val) : List (Str × Val) :=
  match p.2 with
  | .obj inner => inner.map (fun q => (p.1 ++ '.' :: q.1, q.2))
  | .arr l => [(p.1, .str (jsonDumps (.arr l)))]
  | v => [(p.1, v)]

/-- `NetBoxExporter._flatten_dict` (always called with the default
`parent_key=""` and `sep="."`): one level of dict flattening via
dot-joined keys, lists encoded as JSON text, scalars passed through. -/
def flatten_dict (d : Obj) : Obj :=
  dictOfItems (d.flatMap flat_items)

/-- One CSV cell as written by `_save_csv`: `None` becomes the empty
string, lists and dicts become JSON text, everything else `str(v)`. -/
def csvCell : Val → Str
  | .null => []
  | .arr l => jsonDumps (.arr l)
  | .obj m => jsonDumps (.obj m)
  | v => pyStr v

/-- Lexicographic comparison of embedded strings by code point, the
order Python's `sorted` uses on `str`. -/
def strLe : Str → Str → Bool
  | [], _ => true
  | _ :: _, [] => false
  | a :: as_, b :: bs => if a = b then strLe as_ bs else decide (a < b)

/-- `sorted(list(headers))` where `headers` is the set union of all row
keys: deduplicate, then sort lexicographically. -/
def csv_headers (flat : List Obj) : List Str :=
  List.insertionSort (fun a b => strLe a b = true) (flat.flatMap (fun o => o.map Prod.fst)).dedup

/-- The records `_save_csv` writes for one model: every row lists every
header in header order, with the empty string for headers the row does
not have (`csv.DictWriter`'s `restval`). -/
def csv_rows (data : List Obj) : List (List (Str × Str)) :=
  let flat := data.map flatten_dict
  let headers := csv_headers flat
  flat.map (fun f =>
    headers.map (fun h => (h, match lookup h f with | none => [] | some v => csvCell v)))

/-! ## Import driver: `NetBoxImporter` -/

/-- Python `"." in key` (the separator is a single character). -/
def hasDot (k : Str) : Bool := k.contains '.'

/-- Python `key.split(".")`. -/
def splitDot : Str → List Str
  | [] => [[]]
  | c :: rest =>
    if c = '.' then [] :: splitDot rest
    else
      match splitDot rest with
      | g :: gs => (c :: g) :: gs
      | [] => [[c]]

/-- The dotted-key branch of `import_from_csv`'s row cleaning: walk
`parts[:-1]` creating nested dicts as needed and assign the raw string
at the final segment.  `none` models the `TypeError` CPython raises when
an intermediate segment is already bound to a non-dict. -/
def insertPath : Obj → List Str → Str → Option Obj
  | _, [], _ => none
  | m, [last], v => some (setKey m last (.str v))
  | m, p :: rest :: more, v =>
    match lookup p m with
    | none =>
      (insertPath [] (rest :: more) v).map (fun inner => setKey m p (.obj inner))
    | some (.obj inner) =>
      (insertPath inner (rest :: more) v).map (fun inner' => setKey m p (.obj inner'))
    | some _ => none

/-- One iteration of the row-cleaning loop of `import_from_csv`, for the
cell `key → value`.  `J` is the external `json.loads`, returning `none`
exactly when parsing raises.  Empty cells are skipped; dotted keys are
expanded (with the literal string value); other values beginning with
`[` or `{` get a JSON parse attempt with fallback to the literal. -/
def cleanRowStep (J : Str → Option Val) (data : Obj) (key value : Str) : Option Obj :=
  if value = [] then some data
  else if hasDot key then insertPath data (splitDot key) value
  else if value.head? = some '[' || value.head? = some (Char.ofNat 123) then
    some (setKey data key ((J value).getD (.str value)))
  else some (setKey data key (.str value))

/-- The whole row-cleaning loop: fold `cleanRowStep` over the row's
cells in CSV column order. -/
def cleanRow (J : Str → Option Val) (row : List (Str × Str)) : Option Obj :=
  row.foldlM (fun data p => cleanRowStep J data p.1 p.2) []

/-- `if len(data) <= 1 and "id" in data: continue`. -/
def skipRow (data : Obj) : Bool :=
  data.length ≤ 1 && (lookup (strL "id") data).isSome

/-- The outcome of one `session.post`: an HTTP response (status and
body text) or a raised exception with its message. -/
inductive PostOutcome where
  | resp (status : Nat) (text : Str)
  | exc (msg : Str)

/-- One entry of the `errors` list of `import_from_csv`.  The Python
entry is a dict; an HTTP failure records `row`, `data`, `error`,
`status`, while an exception records only `row` and `error` (absent
keys are `none` here). -/
structure ErrEntry where
  row : Nat
  data : Option Obj
  error : Str
  status : Option Nat

/-- The observable outcome of `import_from_csv`: the returned success
count and error list, plus the payloads actually POSTed, in order. -/
structure ImportResult where
  success : Nat
  errors : List ErrEntry
  posted : List Obj

/-- The POST-and-record part of `import_from_csv`'s per-row body:
status 200/201 counts as success, any other response is recorded with
the payload, the first 200 characters of the body, and the status; an
exception is recorded with the row index and message only. -/
def import_row (post : Nat → Obj → PostOutcome) (st : ImportResult) (i : Nat)
    (data : Obj) : ImportResult :=
  match post i data with
  | .resp s t =>
    if s = 201 ∨ s = 200 then
      { st with success := st.success + 1, posted := st.posted ++ [data] }
    else
      { st with errors := st.errors ++ [⟨i, some data, t.take 200, some s⟩],
                posted := st.posted ++ [data] }
  | .exc m =>
    { st with errors := st.errors ++ [⟨i, none, m, none⟩], posted := st.posted ++ [data] }

/-- The whole body of `import_from_csv`'s per-row loop for the row
`p.2` at index `p.1`: clean the row, skip placeholder rows, POST the
rest. -/
def import_csv_step (J : Str → Option Val) (post : Nat → Obj → PostOutcome)
    (st : ImportResult) (p : Nat × List (Str × Str)) : Option ImportResult := do
  let data ← cleanRow J p.2
  if skipRow data then pure st else pure (import_row post st p.1 data)

/-- `NetBoxImporter.import_from_csv` on the parsed rows of one file:
clean each row, skip placeholder rows (`≤ 1` key which is `id`), POST
the rest, never halting on a row failure.  `post i data` is the remote
service's reaction to POSTing `data` for row `i`.  `none` models the
uncaught `TypeError` of a malformed dotted header. -/
def import_from_csv (J : Str → Option Val) (post : Nat → Obj → PostOutcome)
    (rows : List (List (Str × Str))) : Option ImportResult :=
  rows.enum.foldlM (import_csv_step J post) ⟨0, [], []⟩

/-- Left-to-right, non-overlapping substring replacement, fuel-driven
(`fuel ≥ s.length` suffices, and the scan always shortens `s`). -/
def replaceAllFuel (pat rep : Str) : Nat → Str → Str
  | _, [] => []
  | 0, s => s
  | fuel + 1, c :: rest =>
    if pat.isEmpty then c :: replaceAllFuel pat rep fuel rest
    else if pat.isPrefixOf (c :: rest) then
      rep ++ replaceAllFuel pat rep fuel (List.drop (pat.length - 1) rest)
    else c :: replaceAllFuel pat rep fuel rest

/-- Python `s.replace(old, new)` for a non-empty `old`: left-to-right,
non-overlapping.  (For an empty `old` Python interleaves `new`
everywhere; the call sites use `".csv"`, so that case is never reached
and is modelled as a copy.) -/
def replaceAll (pat rep s : Str) : Str := replaceAllFuel pat rep s.length s

/-- `csv_path.replace(".csv", "_errors.json")`: the per-file error-log
name. -/
def errorsPath (p : Str) : Str := replaceAll (strL ".csv") (strL "_errors.json") p

/-- The file list `import_all` iterates over: the manifest's `files`
when `manifest.json` exists, otherwise the `.csv` paths in the order
the directory walk yielded them (no reordering). -/
def files_to_import (manifestFiles : Option (List Str)) (scanned : List Str) : List Str :=
  match manifestFiles with
  | some fs => fs
  | none => scanned

/-- The observable outcome of `import_all`: which files were imported,
in order, the endpoints they were POSTed to, and the aggregate
counts. -/
structure ImportAllRun where
  processed : List Str
  endpoints : List Str
  totalSuccess : Nat
  totalErrors : Nat

/-- One iteration of `import_all`'s loop: a missing file is skipped
with a warning, an existing one is imported against the endpoint
`file_path.replace(".csv", "")` and its counts accumulated. -/
def import_all_step (J : Str → Option Val) (post : Str → Nat → Obj → PostOutcome)
    (fileExists : Str → Bool) (rowsOf : Str → List (List (Str × Str)))
    (st : ImportAllRun) (fp : Str) : Option ImportAllRun :=
  if !fileExists fp then pure st
  else do
    let r ← import_from_csv J (post fp) (rowsOf fp)
    pure { processed := st.processed ++ [fp],
           endpoints := st.endpoints ++ [replaceAll (strL ".csv") [] fp],
           totalSuccess := st.totalSuccess + r.success,
           totalErrors := st.totalErrors + r.errors.length }

/-- `NetBoxImporter.import_all`: pick the file list (manifest or
directory scan) and run the per-file loop.  External collaborators are
parameters: `fileExists` and `rowsOf` stand for the filesystem,
`post fp` for the transport used for file `fp`. -/
def import_all (J : Str → Option Val) (post : Str → Nat → Obj → PostOutcome)
    (manifestFiles : Option (List Str)) (scanned : List Str)
    (fileExists : Str → Bool) (rowsOf : Str → List (List (Str × Str))) :
    Option ImportAllRun :=
  (files_to_import manifestFiles scanned).foldlM
    (import_all_step J post fileExists rowsOf) ⟨[], [], 0, 0⟩

/-! ## Analysis predicates (not part of the source; used to state claims) -/

mutual

/-- The C5 invariant, read off the spec: every mapping reachable inside
the value has only primitive values (so no mapping ever contains a
mapping or a sequence). -/
def okVal : Val → Bool
  | .obj m => okFields m
  | .arr l => okList l
  | _ => true

def okList : List Val → Bool
  | [] => true
  | v :: r => okVal v && okList r

/-- All field values are primitive. -/
def okFields : List (Str × Val) → Bool
  | [] => true
  | p :: r => primVal p.2 && okFields r

end

/-- The C5 invariant over a whole Reduced Object. -/
def reduced_inv (o : Obj) : Bool := o.all (fun p => okVal p.2)

/-- `Subval t v`: the value `t` occurs (as a subvalue) inside `v`. -/
inductive Subval : Val → Val → Prop where
  | refl (v : Val) : Subval v v
  | inObj {t : Val} {k : Str} {v : Val} {m : Obj} :
      Subval t v → (k, v) ∈ m → Subval t (.obj m)
  | inArr {t v : Val} {l : List Val} :
      Subval t v → v ∈ l → Subval t (.arr l)

/-- The position of a csv path in the catalog-ordered manifest list
(64 if absent): the Resource Catalog order on tabular files. -/
def catalogIndex (f : Str) : Nat :=
  (MODELS_ORDERED.map (fun am => csvPath am.1 am.2)).indexOf f

/-- The shape of every error entry `import_from_csv` records: an HTTP
failure carries both the payload and the status, an exception carries
neither. -/
def errEntryShape (e : ErrEntry) : Prop :=
  (e.data.isSome = true ∧ e.status.isSome = true) ∨ (e.data = none ∧ e.status = none)

/-- The row-counting predicate of `import_from_csv`: a row is POSTed
exactly when it cleans successfully and is not a placeholder. -/
def rowIsPosted (J : Str → Option Val) (row : List (Str × Str)) : Bool :=
  match cleanRow J row with
  | some d => !skipRow d
  | none => false

/-! ## The tabular round trip (C4) -/

/-- The one CSV record `_save_csv` writes for a single object: every
header of the (single-row) file in sorted order, each with its cell. -/
def csv_record (x : Obj) : List (Str × Str) :=
  let flat := flatten_dict x
  (csv_headers [flat]).map
    (fun h => (h, match lookup h flat with | none => [] | some v => csvCell v))

/-- The round trip under test in C4: flatten one Reduced Object, write
it through the CSV cell encoding, read the record back through the
importer's row cleaning (with JSON parser `J`). -/
def rt (J : Str → Option Val) (x : Obj) : Option Obj :=
  cleanRow J (csv_record x)

/-- Values allowed inside a nested mapping for the amended C4
statement: strings and nulls. -/
def safeInnerVal : Val → Bool
  | .str _ => true
  | .null => true
  | _ => false

/-- Values allowed at top level for the amended C4 statement: strings
that do not look like structured text, nulls, and one-level nested
mappings of strings/nulls with unique dot-free keys. -/
def safeTopVal : Val → Bool
  | .str s => !(s.head? == some '[' || s.head? == some (Char.ofNat 123))
  | .null => true
  | .obj m =>
    decide (m.map Prod.fst).Nodup && m.all (fun q => !hasDot q.1 && safeInnerVal q.2)
  | _ => false

/-- The amended C4 shape: unique dot-free keys, string/null scalars
(top-level strings not beginning with `[` or `{`), and one-level
nested mappings of strings/nulls. -/
def TabularSafe (x : Obj) : Bool :=
  decide (x.map Prod.fst).Nodup && x.all (fun p => !hasDot p.1 && safeTopVal p.2)

/-- The C4 expectation for one field on read-back: empty strings and
nulls disappear, nested mappings lose their empty fields and disappear
when nothing remains. -/
def keepInner : Str × Val → Bool
  | (_, .str s) => !s.isEmpty
  | _ => false

/-- The C4 expectation for one field: empty strings and nulls vanish,
and inside a nested mapping only non-empty string entries stay. -/
def dropEmptyVal : Str → Val → Option Val
  | _, .str s => if s.isEmpty then none else some (.str s)
  | _, .null => none
  | _, .obj m =>
    let m' := m.filter keepInner
    if m'.isEmpty then none else some (.obj m')
  | _, v => some v

/-- The C4 expectation for a whole Reduced Object. -/
def dropEmpties (x : Obj) : Obj :=
  x.filterMap (fun p => (dropEmptyVal p.1 p.2).map (fun w => (p.1, w)))

/-- Equality of values up to the order of fields in a mapping (Python
`==` on one-level dicts): mappings are compared by lookup, everything
else by equality. -/
def ValShallowEqv : Val → Val → Prop
  | .obj m₁, .obj m₂ => ∀ i, lookup i m₁ = lookup i m₂
  | a, b => a = b

/-- Pointwise `ValShallowEqv` on optional values. -/
def OptValEqv : Option Val → Option Val → Prop
  | some a, some b => ValShallowEqv a b
  | none, none => True
  | _, _ => False

/-- Python `==` on the two-level mappings of C4: same keys, and
shallow-equivalent values at every key. -/
def MapEqv (A B : Obj) : Prop := ∀ k, OptValEqv (lookup k A) (lookup k B)

/-- `takeWhile (· ≠ '.')`: the top-level key a flattened header belongs
to. -/
def topOf : Str → Str
  | [] => []
  | c :: r => if c = '.' then [] else c :: topOf r

/-- What the importer's data holds under key `t`'s nested mapping at
inner key `i` after processing the header set `S`. -/
def innerExp (m : Obj) (S : List Str) (t i : Str) : Option Val :=
  match lookup i m with
  | some (Val.str s) =>
    if (t ++ '.' :: i) ∈ S ∧ s ≠ [] then some (Val.str s) else none
  | _ => none

/-- The row-cleaning loop invariant at key `t`, for source object `x`,
accumulated data `data`, and processed header set `S`. -/
def InvAt (x data : Obj) (S : List Str) (t : Str) : Prop :=
  (∀ s, lookup t x = some (Val.str s) →
    lookup t data = if t ∈ S ∧ s ≠ [] then some (Val.str s) else none) ∧
  (lookup t x = some Val.null → lookup t data = none) ∧
  (lookup t x = none → lookup t data = none) ∧
  (∀ m, lookup t x = some (Val.obj m) →
    (lookup t data = none ∧
      ∀ i s, lookup i m = some (Val.str s) → s ≠ [] → (t ++ '.' :: i) ∉ S) ∨
    (∃ d, lookup t data = some (Val.obj d) ∧
      (∃ i s, lookup i m = some (Val.str s) ∧ s ≠ [] ∧ (t ++ '.' :: i) ∈ S) ∧
      ∀ i, lookup i d = innerExp m S t i))

/-- The row-cleaning loop invariant, at every key. -/
def INV (x data : Obj) (S : List Str) : Prop := ∀ t, InvAt x data S t

/-- The shape of one record entry of a `TabularSafe` object's CSV row:
a scalar header carrying the string (or an empty cell for null), or a
dotted header carrying an inner string (or an empty cell for an inner
null). -/
def RecordEntry (x : Obj) (e : Str × Str) : Prop :=
  (hasDot e.1 = false ∧ ∃ s, lookup e.1 x = some (Val.str s) ∧ e.2 = s) ∨
  (hasDot e.1 = false ∧ lookup e.1 x = some Val.null ∧ e.2 = []) ∨
  (∃ t i m, e.1 = t ++ '.' :: i ∧ hasDot t = false ∧ hasDot i = false ∧
    lookup t x = some (Val.obj m) ∧
    ((∃ s, lookup i m = some (Val.str s) ∧ e.2 = s) ∨
     (lookup i m = some Val.null ∧ e.2 = [])))

/-! ## Concrete inputs used by counterexamples and witnesses -/

/-- A `json.loads` stub on which every parse raises. -/
def J0 : Str → Option Val := fun _ => none

/-- A `json.loads` stub that successfully parses the text `[1]`. -/
def J1 : Str → Option Val :=
  fun s => if s = strL "[1]" then some (.arr [.num 1]) else none

/-- A remote service with zero tenant groups and one object of every
other resource type. -/
def fetch0 : Str × Str → List Obj := fun am =>
  if am = (strL "tenancy", strL "tenant-groups") then []
  else [[(strL "name", .str (strL "x"))]]

/-- A remote service answering HTTP 400 to the second POST (row index
1) and HTTP 201 to every other POST. -/
def post3 : Nat → Obj → PostOutcome := fun i _ =>
  if i = 1 then .resp 400 (strL "bad") else .resp 201 []

/-- A remote service accepting every POST with HTTP 201. -/
def postOk : Nat → Obj → PostOutcome := fun _ _ => .resp 201 []

/-- A transport on which every POST raises an exception. -/
def postExc : Nat → Obj → PostOutcome := fun _ _ => .exc (strL "boom")

/-- Three one-column import rows named a, b, c. -/
def rows3 : List (List (Str × Str)) :=
  [[(strL "name", strL "a")], [(strL "name", strL "b")], [(strL "name", strL "c")]]

/-- A directory scan that yields a dcim file before a tenancy file —
the reverse of the Resource Catalog order. -/
def scan0 : List Str :=
  [csvPath (strL "dcim") (strL "sites"), csvPath (strL "tenancy") (strL "tenants")]

/-- A tabular-safe object with a scalar field and a nested mapping
holding a kept string, an empty string, and a null. -/
def x0 : Obj :=
  [(strL "b", .str (strL "v")),
   (strL "a", .obj [(strL "y", .str (strL "1")), (strL "x", .str []), (strL "z", .null)])]

end Netbox

open Netbox

/-! ## Basic dictionary lemmas -/

theorem lookup_eq_none_of_not_mem {α : Type} {k : Str} {l : List (Str × α)}
    (h : k ∉ l.map Prod.fst) : lookup k l = none := by
  induction l with
  | nil => rfl
  | cons p rest ih =>
    simp only [List.map_cons, List.mem_cons, not_or] at h
    cases p with
    | mk k' v =>
      simp only [lookup]
      rw [if_neg (by simpa using fun hk => h.1 hk.symm)]
      exact ih h.2

theorem lookup_mem {α : Type} {k : Str} {l : List (Str × α)} {v : α}
    (h : lookup k l = some v) : (k, v) ∈ l := by
  induction l with
  | nil => simp [lookup] at h
  | cons p rest ih =>
    cases p with
    | mk k' v' =>
      simp only [lookup] at h
      by_cases hk : k' = k
      · subst hk
        rw [if_pos rfl] at h
        injection h with h
        subst h
        exact List.mem_cons_self _ _
      · rw [if_neg hk] at h
        exact List.mem_cons_of_mem _ (ih h)

/-- Keys survive a key-preserving `filterMap`. -/
theorem keys_filterMap_sub {f : Str → Val → Option Val} {obj : Obj} {k : Str}
    (h : k ∈ (obj.filterMap (fun p => (f p.1 p.2).map (fun w => (p.1, w)))).map Prod.fst) :
    k ∈ obj.map Prod.fst := by
  rcases List.mem_map.mp h with ⟨q, hq, rfl⟩
  rcases List.mem_filterMap.mp hq with ⟨p₀, hp₀, hfp₀⟩
  rcases Option.map_eq_some'.mp hfp₀ with ⟨w, _, hw2⟩
  subst hw2
  exact List.mem_map.mpr ⟨p₀, hp₀, rfl⟩

/-- Looking a key up after a key-preserving `filterMap` (with unique
keys) is the same as cleaning the key's own value. -/
theorem lookup_filterMap_keyed {f : Str → Val → Option Val} {k : Str} {obj : Obj}
    (hn : (obj.map Prod.fst).Nodup) :
    lookup k (obj.filterMap (fun p => (f p.1 p.2).map (fun w => (p.1, w)))) =
      (lookup k obj).bind (f k) := by
  induction obj with
  | nil => rfl
  | cons p rest ih =>
    cases p with
    | mk k' v =>
      simp only [List.map_cons, List.nodup_cons] at hn
      by_cases hk : k' = k
      · subst hk
        cases hf : f k' v with
        | some w => simp [List.filterMap_cons, hf, lookup]
        | none =>
          have hnone : lookup k'
              (List.filterMap (fun p => Option.map (fun w => (p.1, w)) (f p.1 p.2)) rest) =
              none :=
            lookup_eq_none_of_not_mem (fun hmem => hn.1 (keys_filterMap_sub hmem))
          simp [List.filterMap_cons, hf, lookup, hnone]
      · cases hf : f k' v with
        | some w =>
          simp only [List.filterMap_cons, hf, Option.map_some', lookup, if_neg hk]
          exact ih hn.2
        | none =>
          simp only [List.filterMap_cons, hf, Option.map_none', lookup, if_neg hk]
          exact ih hn.2

/-- Below the depth cutoff, `_clean_object` is the per-field loop. -/
theorem clean_object_eq {obj : Obj} {d : Nat} (hd : d ≤ 3) :
    clean_object obj d =
      obj.filterMap (fun p => (clean_entry p.1 p.2).map (fun w => (p.1, w))) := by
  unfold clean_object
  rw [if_neg (by omega)]

theorem lookup_clean_object {obj : Obj} {d : Nat} {k : Str} (hd : d ≤ 3)
    (hn : (obj.map Prod.fst).Nodup) :
    lookup k (clean_object obj d) = (lookup k obj).bind (clean_entry k) := by
  rw [clean_object_eq hd]
  exact lookup_filterMap_keyed hn

/-! ## Reducer lemmas -/

/-- The shallow copy keeps only primitive values. -/
theorem okFields_shallow_copy (m : Obj) : okFields (shallow_copy m) = true := by
  induction m with
  | nil => rfl
  | cons p rest ih =>
    unfold shallow_copy at ih ⊢
    rw [List.filter_cons]
    by_cases hp : (!(remove_fields.contains p.1) && primVal p.2) = true
    · rw [if_pos hp]
      have h2 : primVal p.2 = true := by
        simp only [Bool.and_eq_true] at hp
        exact hp.2
      simp only [okFields, h2, Bool.true_and]
      exact ih
    · rw [if_neg hp]
      exact ih

/-- An extracted reference is either `None` or a value occurring inside
the nested mapping. -/
theorem extract_ref_cases (m : Obj) :
    extract_ref (.obj m) = .null ∨ Subval (extract_ref (.obj m)) (.obj m) := by
  cases hs : lookup (strL "slug") m with
  | some x =>
    have he : extract_ref (.obj m) = x := by simp [extract_ref, hs]
    rw [he]
    exact Or.inr (Subval.inObj (Subval.refl x) (lookup_mem hs))
  | none =>
    cases hn2 : lookup (strL "name") m with
    | some x =>
      have he : extract_ref (.obj m) = x := by simp [extract_ref, hs, hn2]
      rw [he]
      exact Or.inr (Subval.inObj (Subval.refl x) (lookup_mem hn2))
    | none =>
      cases hi : lookup (strL "id") m with
      | some x =>
        have he : extract_ref (.obj m) = x := by simp [extract_ref, hs, hn2, hi]
        rw [he]
        exact Or.inr (Subval.inObj (Subval.refl x) (lookup_mem hi))
      | none =>
        exact Or.inl (by simp [extract_ref, hs, hn2, hi])

/-- C9: reference extraction from a nested mapping follows the priority
order slug, then name, then numeric id — slug="a", name="b", id=7 yields
"a"; name="b", id=7 yields "b"; id=7 alone yields 7 — and a nested
mapping containing none of the three is kept in the cleaned object as a
shallow copy holding only its primitive-valued fields. -/
theorem netbox_c9 :
    (extract_ref (.obj [(strL "slug", .str (strL "a")), (strL "name", .str (strL "b")),
        (strL "id", .num 7)]) = .str (strL "a")) ∧
    (extract_ref (.obj [(strL "name", .str (strL "b")), (strL "id", .num 7)]) =
        .str (strL "b")) ∧
    (extract_ref (.obj [(strL "id", .num 7)]) = .num 7) ∧
    (∀ m : Obj, lookup (strL "slug") m = none → lookup (strL "name") m = none →
        lookup (strL "id") m = none → extract_ref (.obj m) = .null) ∧
    (∀ (obj : Obj) (k : Str) (m : Obj), (obj.map Prod.fst).Nodup →
        lookup k obj = some (.obj m) →
        k ∉ remove_fields → k ≠ strL "tags" →
        lookup (strL "slug") m = none → lookup (strL "name") m = none →
        lookup (strL "id") m = none →
        lookup k (clean_object obj 0) = some (.obj (shallow_copy m)) ∧
          okFields (shallow_copy m) = true) := by
  refine ⟨rfl, rfl, rfl, ?_, ?_⟩
  · intro m h1 h2 h3
    simp [extract_ref, h1, h2, h3]
  · intro obj k m hn hlk hc ht h1 h2 h3
    have hnull : extract_ref (.obj m) = .null := by
      simp [extract_ref, h1, h2, h3]
    refine ⟨?_, okFields_shallow_copy m⟩
    rw [lookup_clean_object (by omega) hn, hlk, Option.some_bind]
    simp [clean_entry, hc, ht, hnull]

/-- C9 witness: the fallback branch of the reducer at a concrete
object. -/
theorem netbox_c9_witness :
    lookup (strL "f") (clean_object [(strL "f", .obj [(strL "x", .num 1)])] 0) =
        some (.obj (shallow_copy [(strL "x", .num 1)])) ∧
      okFields (shallow_copy [(strL "x", .num 1)]) = true :=
  netbox_c9.2.2.2.2 [(strL "f", .obj [(strL "x", .num 1)])] (strL "f") [(strL "x", .num 1)]
    (by decide) rfl (by decide) (by decide) rfl rfl rfl

/-- C8 counterexample: for the field value `[{"id": 0}]` — a one-element
sequence of mappings whose extracted reference is the falsy scalar 0 —
the claim demands the bare scalar `0`, but the code's truthiness test
(`if ref:`) drops the element and yields the empty sequence. -/
theorem netbox_c8_counterexample :
    clean_object [(strL "f", .arr [.obj [(strL "id", .num 0)]])] 0 =
        [(strL "f", .arr [])] ∧
      [(strL "f", Val.arr [])] ≠ [(strL "f", Val.num 0)] := by
  refine ⟨rfl, ?_⟩
  simp

/-- The list-collapse of a sequence of mappings: extract each element's
reference and keep the truthy ones. -/
theorem collapse_refs_objs (ms : List Obj) :
    collapse_refs (ms.map Val.obj) =
      (match (ms.map (fun m => extract_ref (.obj m))).filter truthy with
       | [r] => r
       | rs => .arr rs) := by
  have h : ∀ ns : List Obj, (ns.map Val.obj).filterMap ref_of_item =
      (ns.map (fun m => extract_ref (.obj m))).filter truthy := by
    intro ns
    induction ns with
    | nil => rfl
    | cons m rest ih =>
      simp only [List.map_cons, List.filterMap_cons, List.filter_cons, ref_of_item]
      by_cases htr : truthy (extract_ref (.obj m)) = true
      · simp [htr, ih]
      · simp only [Bool.not_eq_true] at htr
        simp [htr, ih]
  unfold collapse_refs
  rw [h]

/-- C8 (amended): for a field whose sequence value is empty or starts
with a mapping, the reducer applies the collapse: each mapping element
is replaced by its extracted reference, elements whose reference is
missing or falsy (None, empty string, 0, False, empty collection) are
dropped, non-mapping elements are kept as-is; exactly one collected
value is unwrapped to a bare scalar, and zero resolvable references
yield an empty sequence. -/
theorem netbox_c8_amended :
    (∀ (obj : Obj) (k : Str) (l : List Val), (obj.map Prod.fst).Nodup →
        lookup k obj = some (.arr l) →
        k ∉ remove_fields → k ≠ strL "tags" →
        (l = [] ∨ ∃ m ms, l = .obj m :: ms) →
        lookup k (clean_object obj 0) = some (collapse_refs l)) ∧
    (∀ ms : List Obj,
        collapse_refs (ms.map Val.obj) =
          (match (ms.map (fun m => extract_ref (.obj m))).filter truthy with
           | [r] => r
           | rs => .arr rs)) ∧
    (collapse_refs [.obj [(strL "slug", .str (strL "x"))]] = .str (strL "x")) ∧
    (collapse_refs [.obj []] = .arr []) := by
  refine ⟨?_, collapse_refs_objs, rfl, rfl⟩
  intro obj k l hn hlk hc ht hshape
  rw [lookup_clean_object (by omega) hn, hlk, Option.some_bind]
  rcases hshape with rfl | ⟨m, ms, rfl⟩
  · simp [clean_entry, hc, ht]
  · simp [clean_entry, hc, ht]

/-- C5 counterexample: the raw object with one field
`[1, {"a": {"b": 1}}]` — a sequence whose first element is not a
mapping — is kept verbatim by the reducer, so the Reduced Object
contains a mapping (inside the kept sequence) whose value is itself a
mapping, violating the claimed invariant. -/
theorem netbox_c5_counterexample :
    clean_object [(strL "f", .arr [.num 1, .obj [(strL "a", .obj [(strL "b", .num 1)])]])] 0 =
        [(strL "f", .arr [.num 1, .obj [(strL "a", .obj [(strL "b", .num 1)])]])] ∧
      reduced_inv (clean_object
        [(strL "f", .arr [.num 1, .obj [(strL "a", .obj [(strL "b", .num 1)])]])] 0) =
        false :=
  ⟨rfl, rfl⟩

/-- C5 (amended): below the depth cutoff, every field of the Reduced
Object whose value is itself a mapping is either a shallow copy with
only primitive values (the no-reference fallback) or a mapping taken
verbatim from inside the raw object (through reference extraction, a
kept-as-is sequence element, or a non-sequence tags value); mappings
inside kept-as-is sequences are not otherwise constrained. -/
theorem netbox_c5_amended :
    ∀ (obj : Obj) (d : Nat), d ≤ 3 →
      ∀ (k : Str) (m' : Obj), (k, Val.obj m') ∈ clean_object obj d →
        okFields m' = true ∨ Subval (.obj m') (.obj obj) := by
  intro obj d hd k m' hmem
  rw [clean_object_eq hd] at hmem
  rcases List.mem_filterMap.mp hmem with ⟨⟨k₀, v₀⟩, hp, hfe⟩
  rcases Option.map_eq_some'.mp hfe with ⟨w, hw, hkw⟩
  simp only [Prod.mk.injEq] at hkw
  obtain ⟨h1, h2⟩ := hkw
  subst h1
  subst h2
  simp only at hw
  by_cases hrm : k₀ ∈ remove_fields
  · simp [clean_entry, hrm] at hw
  · by_cases htg : k₀ = strL "tags"
    · cases v₀ with
      | arr tags => simp [clean_entry, hrm, htg] at hw
      | obj mm =>
        simp only [clean_entry, hrm, htg] at hw
        simp at hw
        obtain ⟨-, hw2⟩ := hw
        subst hw2
        exact Or.inr (Subval.inObj (Subval.refl _) hp)
      | null => simp [clean_entry, hrm, htg] at hw
      | bool b => simp [clean_entry, hrm, htg] at hw
      | num n => simp [clean_entry, hrm, htg] at hw
      | str s => simp [clean_entry, hrm, htg] at hw
    · cases v₀ with
      | null => simp [clean_entry, hrm, htg] at hw
      | bool b => simp [clean_entry, hrm, htg] at hw
      | num n => simp [clean_entry, hrm, htg] at hw
      | str s => simp [clean_entry, hrm, htg] at hw
      | obj mm =>
        cases her : extract_ref (.obj mm) with
        | null =>
          have hce : clean_entry k₀ (Val.obj mm) = some (Val.obj (shallow_copy mm)) := by
            simp [clean_entry, hrm, htg, her]
          rw [hce] at hw
          simp only [Option.some.injEq, Val.obj.injEq] at hw
          subst hw
          exact Or.inl (okFields_shallow_copy mm)
        | obj mr =>
          have hce : clean_entry k₀ (Val.obj mm) = some (Val.obj mr) := by
            simp [clean_entry, hrm, htg, her]
          rw [hce] at hw
          simp only [Option.some.injEq, Val.obj.injEq] at hw
          have hsub := (extract_ref_cases mm).resolve_left (by rw [her]; simp)
          rw [her] at hsub
          subst hw
          exact Or.inr (Subval.inObj hsub hp)
        | bool b =>
          have hce : clean_entry k₀ (Val.obj mm) = some (Val.bool b) := by
            simp [clean_entry, hrm, htg, her]
          rw [hce] at hw
          simp at hw
        | num n =>
          have hce : clean_entry k₀ (Val.obj mm) = some (Val.num n) := by
            simp [clean_entry, hrm, htg, her]
          rw [hce] at hw
          simp at hw
        | str s =>
          have hce : clean_entry k₀ (Val.obj mm) = some (Val.str s) := by
            simp [clean_entry, hrm, htg, her]
          rw [hce] at hw
          simp at hw
        | arr la =>
          have hce : clean_entry k₀ (Val.obj mm) = some (Val.arr la) := by
            simp [clean_entry, hrm, htg, her]
          rw [hce] at hw
          simp at hw
      | arr l =>
        by_cases hcnd : (!l.isEmpty &&
            (match l.head? with | some (.obj _) => false | _ => true)) = true
        · have hce : clean_entry k₀ (Val.arr l) = some (Val.arr l) := by
            simp only [clean_entry, if_neg htg]
            rw [if_neg (by simp [hrm]), if_pos hcnd]
          rw [hce] at hw
          simp at hw
        · have hce : clean_entry k₀ (Val.arr l) = some (collapse_refs l) := by
            simp only [clean_entry, if_neg htg]
            rw [if_neg (by simp [hrm]), if_neg hcnd]
          rw [hce] at hw
          have hw' : collapse_refs l = Val.obj m' := by
            injection hw
          unfold collapse_refs at hw'
          cases hrf : l.filterMap ref_of_item with
          | nil => rw [hrf] at hw'; simp at hw'
          | cons r rs =>
            cases rs with
            | cons r2 rs2 => rw [hrf] at hw'; simp at hw'
            | nil =>
              rw [hrf] at hw'
              have hrmem : r ∈ l.filterMap ref_of_item := by
                rw [hrf]
                exact List.mem_cons_self _ _
              rcases List.mem_filterMap.mp hrmem with ⟨item, hitem, hri⟩
              simp only at hw'
              subst hw'
              cases item with
              | obj mi =>
                by_cases htr : truthy (extract_ref (.obj mi)) = true
                · have hro : ref_of_item (.obj mi) = some (extract_ref (.obj mi)) := by
                    simp [ref_of_item, htr]
                  rw [hro] at hri
                  have heq : extract_ref (.obj mi) = Val.obj m' := by
                    injection hri
                  have hsub := (extract_ref_cases mi).resolve_left (by
                    rw [heq]; simp)
                  rw [heq] at hsub
                  exact Or.inr (Subval.inObj (Subval.inArr hsub hitem) hp)
                · have hro : ref_of_item (.obj mi) = none := by
                    simp [ref_of_item, htr]
                  rw [hro] at hri
                  exact absurd hri (by simp)
              | null => simp [ref_of_item] at hri
              | bool b =>
                rw [show ref_of_item (Val.bool b) = some (Val.bool b) from rfl] at hri
                injection hri with hri
                exact absurd hri (by intro hc; exact Val.noConfusion hc)
              | num n =>
                rw [show ref_of_item (Val.num n) = some (Val.num n) from rfl] at hri
                injection hri with hri
                exact absurd hri (by intro hc; exact Val.noConfusion hc)
              | str s =>
                rw [show ref_of_item (Val.str s) = some (Val.str s) from rfl] at hri
                injection hri with hri
                exact absurd hri (by intro hc; exact Val.noConfusion hc)
              | arr la =>
                rw [show ref_of_item (Val.arr la) = some (Val.arr la) from rfl] at hri
                injection hri with hri
                exact absurd hri (by intro hc; exact Val.noConfusion hc)

/-- C5 witness: the amended invariant applied to a concrete raw object
whose nested mapping has no extractable reference. -/
theorem netbox_c5_witness :
    okFields [(strL "x", Val.num 1)] = true ∨
      Subval (.obj [(strL "x", Val.num 1)])
        (.obj [(strL "h", .obj [(strL "x", .num 1), (strL "y", .arr [])])]) :=
  netbox_c5_amended [(strL "h", .obj [(strL "x", .num 1), (strL "y", .arr [])])] 0
    (by omega) (strL "h") [(strL "x", Val.num 1)] (by
      show (strL "h", Val.obj [(strL "x", Val.num 1)]) ∈ _
      have : clean_object [(strL "h", .obj [(strL "x", .num 1), (strL "y", .arr [])])] 0 =
          [(strL "h", Val.obj [(strL "x", Val.num 1)])] := rfl
      rw [this]
      exact List.mem_cons_self _ _)

/-! ## Fetcher lemmas (C2) -/

/-- Against a transport that always fails, the `_get` loop never
returns, whatever the number of observed iterations. -/
theorem getLoop_alwaysFail (limit : Nat) :
    ∀ (fuel call offset : Nat) (acc : List Val),
      getLoop alwaysFailTrans limit fuel call offset acc = none := by
  intro fuel
  induction fuel with
  | zero => intro call offset acc; rfl
  | succ n ih =>
    intro call offset acc
    simp only [getLoop, alwaysFailTrans]
    exact ih (call + 1) offset acc

/-- Against a transport that fails `n` times before a final page, the
`_get` loop retries the same offset and returns the page's results at
iteration `n + 1`. -/
theorem getLoop_failThenPage (limit n : Nat) (rs : List Val) :
    ∀ (k call offset : Nat) (acc : List Val), call + k = n →
      getLoop (failThenPage n rs) limit (k + 1) call offset acc = some (acc ++ rs) := by
  intro k
  induction k with
  | zero =>
    intro call offset acc hc
    have hcall : call = n := by omega
    subst hcall
    simp only [getLoop, failThenPage]
    rw [if_neg (lt_irrefl _)]
    rfl
  | succ k ih =>
    intro call offset acc hc
    have hlt : call < n := by omega
    simp only [getLoop, failThenPage]
    rw [if_pos hlt]
    exact ih (call + 1) offset acc (by omega)

/-- C2 counterexample: against a transport whose every request raises
`RequestException` (a persistent transport failure), `_get` (at the
default page limit 1000) never returns at all — in particular it never
returns an empty result, contradicting the claim that a persistently
failing fetch is eventually treated as zero results. -/
theorem netbox_c2_counterexample : get_diverges alwaysFailTrans 1000 := by
  intro fuel
  exact getLoop_alwaysFail 1000 fuel 0 0 []

/-- C2 (amended): a transport failure during a paginated fetch is
caught and the same page is retried after a fixed delay, indefinitely:
the run does not abort, and once the transport recovers the accumulated
results are returned; but a persistently failing transport makes the
fetch never return — it is not treated as zero results for the
descriptor. -/
theorem netbox_c2_amended :
    (∀ limit, get_diverges alwaysFailTrans limit) ∧
    (∀ (limit n : Nat) (rs : List Val),
      get_run (failThenPage n rs) limit (n + 1) = some rs) := by
  constructor
  · intro limit fuel
    exact getLoop_alwaysFail limit fuel 0 0 []
  · intro limit n rs
    have h := getLoop_failThenPage limit n rs n 0 0 [] (by omega)
    simpa [get_run] using h

/-! ## Export driver lemmas (C1) -/

/-- `export_model` returns `{}` (falsy) exactly when the fetch returned
no objects. -/
theorem export_model_none_iff (fetch : Str × Str → List Obj) (app model : Str) :
    export_model fetch app model = none ↔ fetch (app, model) = [] := by
  unfold export_model
  cases h : fetch (app, model) with
  | nil => simp
  | cons o os => simp

/-- The CSV files written by the export loop are exactly the catalog
entries whose fetch was non-empty, in catalog order. -/
theorem export_foldl_written (fetch : Str × Str → List Obj) :
    ∀ (l : List (Str × Str)) (st : List (Str × List (Str × ModelExport)) × Nat × List Str),
      (l.foldl (export_step fetch) st).2.2 =
        st.2.2 ++ (l.filter (fun am => !(fetch am).isEmpty)).map
          (fun am => csvPath am.1 am.2) := by
  intro l
  induction l with
  | nil => intro st; simp
  | cons am l' ih =>
    intro st
    rw [List.foldl_cons, ih, List.filter_cons]
    cases hm : export_model fetch am.1 am.2 with
    | none =>
      have hfe : fetch am = [] := (export_model_none_iff fetch am.1 am.2).mp hm
      have hc : (!(fetch am).isEmpty) = false := by rw [hfe]; rfl
      rw [hc]
      simp only [export_step, hm]
      rfl
    | some r =>
      have hfe : ¬fetch am = [] := by
        intro hcontra
        rw [(export_model_none_iff fetch am.1 am.2).mpr hcontra] at hm
        exact Option.noConfusion hm
      have hc : (!(fetch am).isEmpty) = true := by
        cases hfl : fetch am with
        | nil => exact absurd hfl hfe
        | cons o os => rfl
      rw [hc]
      simp only [export_step, hm, if_true]
      simp

/-- `export_all`'s written files, in closed form. -/
theorem export_all_written (fetch : Str × Str → List Obj) :
    (export_all fetch).written =
      (MODELS_ORDERED.filter (fun am => !(fetch am).isEmpty)).map
        (fun am => csvPath am.1 am.2) := by
  show (MODELS_ORDERED.foldl (export_step fetch) ([], 0, [])).2.2 = _
  rw [export_foldl_written fetch MODELS_ORDERED ([], 0, [])]
  rfl

/-- `export_all`'s manifest always lists every catalog entry. -/
theorem export_all_manifest (fetch : Str × Str → List Obj) :
    (export_all fetch).manifestFiles =
      MODELS_ORDERED.map (fun am => csvPath am.1 am.2) := rfl

/-- The 64 csv paths of the catalog are pairwise distinct. -/
theorem models_csvPath_nodup :
    (MODELS_ORDERED.map (fun am => csvPath am.1 am.2)).Nodup := by decide

/-- C1 counterexample: with a remote service holding zero tenant
groups and at least one object of every other type, the export writes
no `tenancy/tenant-groups.csv`, but that path still appears in the
manifest's `files` list — contradicting the claim that a zero-object
type does not appear in the manifest. -/
theorem netbox_c1_counterexample :
    fetch0 (strL "tenancy", strL "tenant-groups") = [] ∧
    csvPath (strL "tenancy") (strL "tenant-groups") ∈ (export_all fetch0).manifestFiles ∧
    csvPath (strL "tenancy") (strL "tenant-groups") ∉ (export_all fetch0).written := by
  refine ⟨rfl, by decide, ?_⟩
  rw [export_all_written]
  decide

/-- C1 (amended): a catalog entry whose fetch returns zero objects has
no tabular file written for it and does not abort the run (every other
entry with a non-empty fetch still gets its file, and the manifest and
aggregate are still produced) — but its path still appears in the
manifest's `files` list, which unconditionally enumerates the whole
catalog. -/
theorem netbox_c1_amended :
    ∀ (fetch : Str × Str → List Obj) (am : Str × Str), am ∈ MODELS_ORDERED →
      fetch am = [] →
      csvPath am.1 am.2 ∉ (export_all fetch).written ∧
      csvPath am.1 am.2 ∈ (export_all fetch).manifestFiles ∧
      (∀ am' ∈ MODELS_ORDERED, fetch am' ≠ [] →
        csvPath am'.1 am'.2 ∈ (export_all fetch).written) := by
  intro fetch am hmem hfe
  refine ⟨?_, ?_, ?_⟩
  · rw [export_all_written]
    intro hin
    rcases List.mem_map.mp hin with ⟨am', hin', hpath⟩
    have ham' : am' ∈ MODELS_ORDERED := List.mem_of_mem_filter hin'
    have heq : am' = am :=
      List.inj_on_of_nodup_map models_csvPath_nodup ham' hmem hpath
    subst heq
    have := List.of_mem_filter hin'
    rw [hfe] at this
    exact Bool.noConfusion this
  · rw [export_all_manifest]
    exact List.mem_map.mpr ⟨am, hmem, rfl⟩
  · intro am' hmem' hfe'
    rw [export_all_written]
    refine List.mem_map.mpr ⟨am', List.mem_filter.mpr ⟨hmem', ?_⟩, rfl⟩
    cases hfl : fetch am' with
    | nil => exact absurd hfl hfe'
    | cons o os => rfl

/-- C1 witness: the amended statement at the concrete service
`fetch0`. -/
theorem netbox_c1_witness :
    csvPath (strL "tenancy") (strL "tenant-groups") ∉ (export_all fetch0).written ∧
    csvPath (strL "tenancy") (strL "tenant-groups") ∈ (export_all fetch0).manifestFiles := by
  have h := netbox_c1_amended fetch0 (strL "tenancy", strL "tenant-groups")
    (by decide) rfl
  exact ⟨h.1, h.2.1⟩

/-! ## Import driver ordering lemmas (C3) -/

/-- A successful `import_all` loop processes exactly the existing files
of its input list, in the input list's order. -/
theorem import_foldlM_processed (J : Str → Option Val)
    (post : Str → Nat → Obj → PostOutcome) (fileExists : Str → Bool)
    (rowsOf : Str → List (List (Str × Str))) :
    ∀ (l : List Str) (st r : ImportAllRun),
      l.foldlM (import_all_step J post fileExists rowsOf) st = some r →
      r.processed = st.processed ++ l.filter fileExists := by
  intro l
  induction l with
  | nil =>
    intro st r h
    simp only [List.foldlM_nil] at h
    injection h with h
    subst h
    simp
  | cons fp l' ih =>
    intro st r h
    rw [List.foldlM_cons] at h
    by_cases hex : fileExists fp = true
    · cases hic : import_from_csv J (post fp) (rowsOf fp) with
      | none => simp [import_all_step, hex, hic] at h
      | some ri =>
        rw [show import_all_step J post fileExists rowsOf st fp =
            some { processed := st.processed ++ [fp],
                   endpoints := st.endpoints ++ [replaceAll (strL ".csv") [] fp],
                   totalSuccess := st.totalSuccess + ri.success,
                   totalErrors := st.totalErrors + ri.errors.length } by
          simp [import_all_step, hex, hic]] at h
        have h' : l'.foldlM (import_all_step J post fileExists rowsOf)
            { processed := st.processed ++ [fp],
              endpoints := st.endpoints ++ [replaceAll (strL ".csv") [] fp],
              totalSuccess := st.totalSuccess + ri.success,
              totalErrors := st.totalErrors + ri.errors.length } = some r := h
        rw [ih _ r h']
        simp [List.filter_cons, hex]
    · rw [show import_all_step J post fileExists rowsOf st fp = some st by
        simp [import_all_step, hex]] at h
      have h' : l'.foldlM (import_all_step J post fileExists rowsOf) st = some r := h
      rw [ih _ r h']
      simp [List.filter_cons, hex]

/-- C3 counterexample: with no manifest and a directory scan that
yields `dcim/sites.csv` before `tenancy/tenants.csv`, the importer
processes the files in exactly that scan order, although the Resource
Catalog orders tenants strictly before sites — the claimed catalog
re-ordering does not happen. -/
theorem netbox_c3_counterexample :
    (import_all J0 (fun _ => postOk) none scan0 (fun _ => true) (fun _ => [])).map
        ImportAllRun.processed = some scan0 ∧
    catalogIndex (csvPath (strL "tenancy") (strL "tenants")) <
      catalogIndex (csvPath (strL "dcim") (strL "sites")) ∧
    scan0 ≠ [csvPath (strL "tenancy") (strL "tenants"),
             csvPath (strL "dcim") (strL "sites")] := by
  refine ⟨rfl, by decide, by decide⟩

/-- C3 (amended): when the manifest is present the importer replays its
`files` list in manifest order (and the export writes that list in
Resource Catalog order); when the manifest is absent the importer
replays the tabular files in the order the directory scan yielded them
(restricted to existing files) — no re-sorting into catalog order takes
place. -/
theorem netbox_c3_amended :
    (∀ (J : Str → Option Val) (post : Str → Nat → Obj → PostOutcome)
        (scanned : List Str) (fileExists : Str → Bool)
        (rowsOf : Str → List (List (Str × Str))) (r : ImportAllRun),
      import_all J post none scanned fileExists rowsOf = some r →
      r.processed = scanned.filter fileExists) ∧
    (∀ (J : Str → Option Val) (post : Str → Nat → Obj → PostOutcome)
        (fs scanned : List Str) (fileExists : Str → Bool)
        (rowsOf : Str → List (List (Str × Str))) (r : ImportAllRun),
      import_all J post (some fs) scanned fileExists rowsOf = some r →
      r.processed = fs.filter fileExists) ∧
    (∀ fetch : Str × Str → List Obj,
      (export_all fetch).manifestFiles =
        MODELS_ORDERED.map (fun am => csvPath am.1 am.2)) := by
  refine ⟨?_, ?_, fun _ => rfl⟩
  · intro J post scanned fileExists rowsOf r h
    have := import_foldlM_processed J post fileExists rowsOf scanned ⟨[], [], 0, 0⟩ r h
    simpa using this
  · intro J post fs scanned fileExists rowsOf r h
    have := import_foldlM_processed J post fileExists rowsOf fs ⟨[], [], 0, 0⟩ r h
    simpa using this

/-- C3 witness: the no-manifest branch at a one-file scan. -/
theorem netbox_c3_witness :
    ({ processed := [csvPath (strL "tenancy") (strL "tenants")],
       endpoints := [strL "tenancy/tenants"],
       totalSuccess := 0, totalErrors := 0 } : ImportAllRun).processed =
      [csvPath (strL "tenancy") (strL "tenants")].filter (fun _ => true) :=
  netbox_c3_amended.1 J0 (fun _ => postOk) [csvPath (strL "tenancy") (strL "tenants")]
    (fun _ => true) (fun _ => []) _ rfl

/-- C8 witness: the collapse branch at a concrete object, with a single
truthy reference unwrapped to a bare scalar. -/
theorem netbox_c8_witness :
    lookup (strL "g")
        (clean_object [(strL "g", .arr [.obj [(strL "slug", .str (strL "x"))]])] 0) =
      some (collapse_refs [.obj [(strL "slug", .str (strL "x"))]]) :=
  netbox_c8_amended.1 [(strL "g", .arr [.obj [(strL "slug", .str (strL "x"))]])]
    (strL "g") [.obj [(strL "slug", .str (strL "x"))]]
    (by decide) rfl (by decide) (by decide) (Or.inr ⟨_, _, rfl⟩)

/-! ## Importer row lemmas (C10, C6, C7) -/

/-- The skip rule fires exactly on a one-field `id`-only row. -/
theorem skipRow_iff (data : Obj) :
    skipRow data = true ↔ ∃ v, data = [(strL "id", v)] := by
  constructor
  · intro h
    simp only [skipRow, Bool.and_eq_true] at h
    obtain ⟨hlen, hid⟩ := h
    cases data with
    | nil => simp [lookup] at hid
    | cons p rest =>
      cases rest with
      | nil =>
        cases p with
        | mk k v =>
          by_cases hk : k = strL "id"
          · subst hk
            exact ⟨v, rfl⟩
          · exfalso
            simp [lookup, hk] at hid
      | cons q rest2 => simp at hlen
  · rintro ⟨v, rfl⟩
    rfl

/-- A row whose cells are all empty leaves any accumulated data
unchanged. -/
theorem cleanRow_all_empty (J : Str → Option Val) :
    ∀ (row : List (Str × Str)) (data : Obj), (∀ p ∈ row, p.2 = ([] : Str)) →
      row.foldlM (fun d p => cleanRowStep J d p.1 p.2) data = some data := by
  intro row
  induction row with
  | nil => intro data _; rfl
  | cons p rest ih =>
    intro data h
    rw [List.foldlM_cons]
    have hp : p.2 = [] := h p (List.mem_cons_self _ _)
    rw [show cleanRowStep J data p.1 p.2 = some data by rw [hp]; rfl]
    exact ih data (fun q hq => h q (List.mem_cons_of_mem _ hq))

/-- Whatever the POST's outcome, the payload was sent. -/
theorem import_row_posted (post : Nat → Obj → PostOutcome) (st : ImportResult)
    (i : Nat) (data : Obj) :
    (import_row post st i data).posted = st.posted ++ [data] := by
  cases hpo : post i data with
  | resp s t =>
    by_cases hs : s = 201 ∨ s = 200
    · simp [import_row, hpo, hs]
    · simp [import_row, hpo, hs]
  | exc m => simp [import_row, hpo]

/-- C10: the importer's row-skip rule fires exactly when the cleaned
object is a single `id` field; in particular a row of empty cells
cleans to the empty object, is not skipped, and is POSTed as the empty
JSON object. -/
theorem netbox_c10 :
    (∀ data : Obj, skipRow data = true ↔ ∃ v, data = [(strL "id", v)]) ∧
    (∀ (J : Str → Option Val) (row : List (Str × Str)),
      (∀ p ∈ row, p.2 = ([] : Str)) → cleanRow J row = some []) ∧
    (∀ (J : Str → Option Val) (post : Nat → Obj → PostOutcome) (row : List (Str × Str)),
      (∀ p ∈ row, p.2 = ([] : Str)) →
      (import_from_csv J post [row]).map ImportResult.posted = some [[]]) := by
  refine ⟨skipRow_iff, ?_, ?_⟩
  · intro J row h
    exact cleanRow_all_empty J row [] h
  · intro J post row h
    have hclean : cleanRow J row = some [] := cleanRow_all_empty J row [] h
    unfold import_from_csv
    have hstep : import_csv_step J post ⟨0, [], []⟩ (0, row) =
        some (import_row post ⟨0, [], []⟩ 0 []) := by
      unfold import_csv_step
      rw [show cleanRow J (0, row).2 = some [] from hclean]
      rfl
    show (List.foldlM (import_csv_step J post) ⟨0, [], []⟩ [(0, row)]).map
      ImportResult.posted = some [[]]
    rw [List.foldlM_cons]
    rw [hstep]
    have : (List.foldlM (import_csv_step J post)
        (import_row post ⟨0, [], []⟩ 0 []) []).map ImportResult.posted =
        some (import_row post ⟨0, [], []⟩ 0 []).posted := rfl
    rw [show (some (import_row post ⟨0, [], []⟩ 0 []) >>=
        fun b => List.foldlM (import_csv_step J post) b []) =
        some (import_row post ⟨0, [], []⟩ 0 []) from rfl]
    rw [show Option.map ImportResult.posted (some (import_row post ⟨0, [], []⟩ 0 [])) =
        some (import_row post ⟨0, [], []⟩ 0 []).posted from rfl]
    rw [import_row_posted]
    rfl

/-- C10 witness: a one-cell row with an empty value is POSTed as the
empty JSON object. -/
theorem netbox_c10_witness :
    (import_from_csv J0 postOk [[(strL "a", [])]]).map ImportResult.posted =
      some [[]] :=
  netbox_c10.2.2 J0 postOk [(strL "a", [])] (by decide)

/-- C6 counterexample: the importer attaches the value of the dotted
key `a.b` as the literal string `[1]` even though the JSON parser
would successfully parse it — the parse attempt only happens for
non-dotted keys, contradicting the claim's "including values attached
under dot-joined keys". -/
theorem netbox_c6_counterexample :
    cleanRow J1 [(strL "a.b", strL "[1]")] =
        some [(strL "a", .obj [(strL "b", .str (strL "[1]"))])] ∧
    J1 (strL "[1]") = some (.arr [.num 1]) ∧
    Val.str (strL "[1]") ≠ Val.arr [.num 1] := by
  refine ⟨rfl, rfl, by simp⟩

/-- C6 (amended): during row cleaning, a non-empty value under a key
without a dot that begins with `[` or `{` gets a JSON parse attempt
with fallback to the literal string; a non-empty value under a dotted
key is attached through nested-mapping expansion as the literal string,
with no parse attempt. -/
theorem netbox_c6_amended :
    ∀ (J : Str → Option Val) (data : Obj) (key value : Str),
      (hasDot key = false → value ≠ [] →
        (value.head? = some '[' ∨ value.head? = some (Char.ofNat 123)) →
        cleanRowStep J data key value =
          some (setKey data key ((J value).getD (.str value)))) ∧
      (hasDot key = true → value ≠ [] →
        cleanRowStep J data key value = insertPath data (splitDot key) value) := by
  intro J data key value
  constructor
  · intro hd hv hb
    unfold cleanRowStep
    rw [if_neg hv, if_neg (by simp [hd])]
    rw [if_pos (by rcases hb with h | h <;> simp [h])]
  · intro hd hv
    unfold cleanRowStep
    rw [if_neg hv, if_pos (by simp [hd])]

/-- C6 witness: a non-dotted key with a `[`-prefixed value that fails
to parse falls back to the literal string. -/
theorem netbox_c6_witness :
    cleanRowStep J0 [] (strL "k") (strL "[2") =
      some (setKey [] (strL "k") ((J0 (strL "[2")).getD (.str (strL "[2")))) :=
  (netbox_c6_amended J0 [] (strL "k") (strL "[2")).1 (by decide) (by decide)
    (Or.inl (by decide))

/-- A per-row step either keeps the state (skip), or cleans and POSTs. -/
theorem import_csv_step_cases {J : Str → Option Val} {post : Nat → Obj → PostOutcome}
    {st : ImportResult} {p : Nat × List (Str × Str)} {r : ImportResult}
    (h : import_csv_step J post st p = some r) :
    r = st ∨ ∃ data, cleanRow J p.2 = some data ∧ skipRow data = false ∧
      r = import_row post st p.1 data := by
  unfold import_csv_step at h
  cases hc : cleanRow J p.2 with
  | none =>
    rw [hc] at h
    exact absurd h (by simp)
  | some data =>
    rw [hc] at h
    by_cases hs : skipRow data = true
    · left
      have h' : some st = some r := by
        rw [← h]
        simp [hs]
      injection h' with h'
      exact h'.symm
    · right
      refine ⟨data, rfl, by simpa using hs, ?_⟩
      have h' : some (import_row post st p.1 data) = some r := by
        rw [← h]
        simp [hs]
      injection h' with h'
      exact h'.symm

/-- The errors an `import_row` adds: nothing on success, a full entry
(payload, truncated text, status) on an HTTP failure, a row-and-message
entry on an exception. -/
theorem import_row_errors (post : Nat → Obj → PostOutcome) (st : ImportResult)
    (i : Nat) (data : Obj) :
    (import_row post st i data).errors = st.errors ∨
    (∃ t s, (import_row post st i data).errors =
        st.errors ++ [⟨i, some data, List.take 200 t, some s⟩]) ∨
    (∃ m, (import_row post st i data).errors = st.errors ++ [⟨i, none, m, none⟩]) := by
  cases hpo : post i data with
  | resp s t =>
    by_cases hs : s = 201 ∨ s = 200
    · left
      simp [import_row, hpo, hs]
    · right
      left
      exact ⟨t, s, by simp [import_row, hpo, hs]⟩
  | exc m =>
    right
    right
    exact ⟨m, by simp [import_row, hpo]⟩

/-- Every error entry a successful `import_from_csv` fold accumulates
has the recorded shape. -/
theorem import_fold_shape (J : Str → Option Val) (post : Nat → Obj → PostOutcome) :
    ∀ (l : List (Nat × List (Str × Str))) (st r : ImportResult),
      l.foldlM (import_csv_step J post) st = some r →
      (∀ e ∈ st.errors, errEntryShape e) → ∀ e ∈ r.errors, errEntryShape e := by
  intro l
  induction l with
  | nil =>
    intro st r h hst
    simp only [List.foldlM_nil] at h
    injection h with h
    subst h
    exact hst
  | cons p l' ih =>
    intro st r h hst
    rw [List.foldlM_cons] at h
    cases hstep : import_csv_step J post st p with
    | none =>
      rw [hstep] at h
      exact absurd h (by simp)
    | some st' =>
      rw [hstep] at h
      have h' : l'.foldlM (import_csv_step J post) st' = some r := h
      refine ih st' r h' ?_
      rcases import_csv_step_cases hstep with rfl | ⟨data, _, _, rfl⟩
      · exact hst
      · rcases import_row_errors post st p.1 data with he | ⟨t, s, he⟩ | ⟨m, he⟩
        · rw [he]
          exact hst
        · rw [he]
          intro e hmem
          rcases List.mem_append.mp hmem with hmem | hmem
          · exact hst e hmem
          · rcases List.mem_singleton.mp hmem with rfl
            left
            exact ⟨rfl, rfl⟩
        · rw [he]
          intro e hmem
          rcases List.mem_append.mp hmem with hmem | hmem
          · exact hst e hmem
          · rcases List.mem_singleton.mp hmem with rfl
            right
            exact ⟨rfl, rfl⟩

/-- A successful `import_from_csv` fold POSTs one payload per cleaned,
non-placeholder row. -/
theorem import_fold_posted (J : Str → Option Val) (post : Nat → Obj → PostOutcome) :
    ∀ (l : List (Nat × List (Str × Str))) (st r : ImportResult),
      l.foldlM (import_csv_step J post) st = some r →
      r.posted.length = st.posted.length + l.countP (fun p => rowIsPosted J p.2) := by
  intro l
  induction l with
  | nil =>
    intro st r h
    simp only [List.foldlM_nil] at h
    injection h with h
    subst h
    simp
  | cons p l' ih =>
    intro st r h
    rw [List.foldlM_cons] at h
    cases hc : cleanRow J p.2 with
    | none =>
      rw [show import_csv_step J post st p = none by
        unfold import_csv_step
        rw [hc]
        rfl] at h
      exact absurd h (by simp)
    | some data =>
      by_cases hs : skipRow data = true
      · rw [show import_csv_step J post st p = some st by
          unfold import_csv_step
          rw [hc]
          simp [hs]] at h
        have h' : l'.foldlM (import_csv_step J post) st = some r := h
        rw [ih st r h']
        rw [List.countP_cons]
        have : rowIsPosted J p.2 = false := by
          unfold rowIsPosted
          rw [hc]
          simp [hs]
        rw [this]
        simp
      · rw [show import_csv_step J post st p = some (import_row post st p.1 data) by
          unfold import_csv_step
          rw [hc]
          simp [hs]] at h
        have h' : l'.foldlM (import_csv_step J post) (import_row post st p.1 data) =
            some r := h
        rw [ih _ r h']
        rw [List.countP_cons]
        have hcnt : rowIsPosted J p.2 = true := by
          unfold rowIsPosted
          rw [hc]
          simp [hs]
        rw [hcnt]
        rw [import_row_posted]
        simp [Nat.add_comm, Nat.add_assoc, Nat.add_left_comm]

/-- Index-enumeration does not change a count over row contents. -/
theorem countP_enumFrom (g : List (Str × Str) → Bool) :
    ∀ (rows : List (List (Str × Str))) (n : Nat),
      (List.enumFrom n rows).countP (fun p => g p.2) = rows.countP g := by
  intro rows
  induction rows with
  | nil => intro n; rfl
  | cons row rest ih =>
    intro n
    rw [List.enumFrom_cons, List.countP_cons, List.countP_cons, ih (n + 1)]

/-- C7 counterexample: a row whose POST raises a transport exception is
recorded as an error entry with the row index and the message only —
the submitted payload (and status) are absent, contradicting the claim
that every error entry contains the submitted payload. -/
theorem netbox_c7_counterexample :
    (import_from_csv J0 postExc [[(strL "name", strL "a")]]).map
        (fun r => r.errors.map (fun e => (e.row, e.data, e.error, e.status))) =
      some [(0, none, strL "boom", none)] := rfl

/-- C7 (amended): a row with a non-success HTTP response is recorded
with its index, the submitted payload, the first 200 characters of the
response text and the status; a row with a transport exception is
recorded with its index and the exception text only (no payload, no
status); failures never halt the loop — every cleaned non-placeholder
row is POSTed — and the error log is named by replacing `.csv` with
`_errors.json`; 3 rows with row 2 answering HTTP 400 give success
count 2, exactly one error entry at row index 1, and row 3 POSTed. -/
theorem netbox_c7_amended :
    (import_from_csv J0 post3 rows3 =
      some { success := 2,
             errors := [⟨1, some [(strL "name", .str (strL "b"))], strL "bad", some 400⟩],
             posted := [[(strL "name", .str (strL "a"))], [(strL "name", .str (strL "b"))],
                        [(strL "name", .str (strL "c"))]] }) ∧
    (∀ (J : Str → Option Val) (post : Nat → Obj → PostOutcome)
        (rows : List (List (Str × Str))) (r : ImportResult),
      import_from_csv J post rows = some r → ∀ e ∈ r.errors, errEntryShape e) ∧
    (∀ (J : Str → Option Val) (post : Nat → Obj → PostOutcome)
        (rows : List (List (Str × Str))) (r : ImportResult),
      import_from_csv J post rows = some r →
      r.posted.length = rows.countP (rowIsPosted J)) ∧
    (errorsPath (strL "tenancy/tenants.csv") = strL "tenancy/tenants_errors.json") := by
  refine ⟨rfl, ?_, ?_, rfl⟩
  · intro J post rows r h
    exact import_fold_shape J post rows.enum ⟨0, [], []⟩ r h (by simp)
  · intro J post rows r h
    have hp := import_fold_posted J post rows.enum ⟨0, [], []⟩ r h
    have he : rows.enum.countP (fun p => rowIsPosted J p.2) = rows.countP (rowIsPosted J) :=
      countP_enumFrom (rowIsPosted J) rows 0
    rw [hp, he]
    simp

/-- C7 witness: the posted-count clause at the concrete 3-row
scenario. -/
theorem netbox_c7_witness :
    ([[(strL "name", Val.str (strL "a"))], [(strL "name", Val.str (strL "b"))],
      [(strL "name", Val.str (strL "c"))]] : List Obj).length =
      rows3.countP (rowIsPosted J0) :=
  netbox_c7_amended.2.2.1 J0 post3 rows3
    { success := 2,
      errors := [⟨1, some [(strL "name", .str (strL "b"))], strL "bad", some 400⟩],
      posted := [[(strL "name", .str (strL "a"))], [(strL "name", .str (strL "b"))],
                 [(strL "name", .str (strL "c"))]] } rfl

/-! ## Round-trip lemmas (C4): dictionaries and dotted keys -/

theorem lookup_setKey_self {α : Type} (m : List (Str × α)) (k : Str) (v : α) :
    lookup k (setKey m k v) = some v := by
  induction m with
  | nil => simp [setKey, lookup]
  | cons p rest ih =>
    by_cases hk : p.1 = k
    · simp [setKey, hk, lookup]
    · simp [setKey, hk, lookup, ih]

theorem lookup_setKey_other {α : Type} (m : List (Str × α)) (k k' : Str) (v : α)
    (h : k' ≠ k) : lookup k' (setKey m k v) = lookup k' m := by
  have hkk : ¬k = k' := fun he => h he.symm
  induction m with
  | nil => simp [setKey, lookup, hkk]
  | cons p rest ih =>
    by_cases hk : p.1 = k
    · have h1 : setKey (p :: rest) k v = (k, v) :: rest := by simp [setKey, hk]
      rw [h1]
      have hp : ¬p.1 = k' := by rw [hk]; exact hkk
      simp [lookup, hkk, hp]
    · have h1 : setKey (p :: rest) k v = p :: setKey rest k v := by simp [setKey, hk]
      rw [h1]
      simp [lookup, ih]

theorem lookup_isSome_iff {α : Type} (k : Str) (l : List (Str × α)) :
    (lookup k l).isSome = true ↔ k ∈ l.map Prod.fst := by
  induction l with
  | nil => simp [lookup]
  | cons p rest ih =>
    cases p with
    | mk a b =>
      by_cases hk : a = k
      · constructor
        · intro _
          exact List.mem_map.mpr ⟨(a, b), List.mem_cons_self _ _, hk⟩
        · intro _
          have h1 : lookup k ((a, b) :: rest) = some b := by
            unfold lookup
            rw [if_pos hk]
          rw [h1]
          rfl
      · have h1 : lookup k ((a, b) :: rest) = lookup k rest := by
          conv_lhs => unfold lookup
          rw [if_neg hk]
        rw [h1, List.map_cons, List.mem_cons]
        constructor
        · intro hs
          exact Or.inr (ih.mp hs)
        · rintro (he | hm)
          · exact absurd he.symm hk
          · exact ih.mpr hm

theorem lookup_eq_of_mem_nodup {α : Type} {l : List (Str × α)} {k : Str} {v : α}
    (hn : (l.map Prod.fst).Nodup) (hm : (k, v) ∈ l) : lookup k l = some v := by
  induction l with
  | nil => simp at hm
  | cons p rest ih =>
    simp only [List.map_cons, List.nodup_cons] at hn
    rcases List.mem_cons.mp hm with rfl | hm'
    · simp [lookup]
    · have hk : p.1 ≠ k := by
        intro he
        exact hn.1 (he ▸ List.mem_map.mpr ⟨(k, v), hm', rfl⟩)
      simp [lookup, hk]
      exact ih hn.2 hm'

/-- `splitDot` of a dot-free string. -/
theorem splitDot_no_dot {t : Str} (h : hasDot t = false) : splitDot t = [t] := by
  induction t with
  | nil => rfl
  | cons c r ih =>
    simp only [hasDot, List.contains_cons, Bool.or_eq_false_iff] at h
    have hc : ¬c = '.' := by
      intro hc
      subst hc
      simp at h
    have hr : hasDot r = false := by
      simpa [hasDot] using h.2
    simp [splitDot, hc, ih hr]

/-- `splitDot` of a two-segment dotted key. -/
theorem splitDot_append {t i : Str} (ht : hasDot t = false) (hi : hasDot i = false) :
    splitDot (t ++ '.' :: i) = [t, i] := by
  induction t with
  | nil => simp [splitDot, splitDot_no_dot hi]
  | cons c r ih =>
    simp only [hasDot, List.contains_cons, Bool.or_eq_false_iff] at ht
    have hc : ¬c = '.' := by
      intro hc
      subst hc
      simp at ht
    have hr : hasDot r = false := by
      simpa [hasDot] using ht.2
    simp [splitDot, hc, ih hr]

/-- A two-segment dotted key contains a dot. -/
theorem hasDot_append (t i : Str) : hasDot (t ++ '.' :: i) = true := by
  induction t with
  | nil => simp [hasDot, List.contains_cons]
  | cons c r ih =>
    show hasDot (c :: (r ++ '.' :: i)) = true
    simp only [hasDot, List.contains_cons] at ih ⊢
    rw [ih]
    simp

/-- A dot-free key differs from every dotted key. -/
theorem no_dot_ne_dotted {h t i : Str} (hh : hasDot h = false) :
    h ≠ t ++ '.' :: i := by
  intro he
  rw [he, hasDot_append] at hh
  exact Bool.noConfusion hh

/-- Splitting a dotted key is injective on dot-free segments. -/
theorem dotted_inj {t₁ i₁ t₂ i₂ : Str} (h₁ : hasDot t₁ = false) (h₂ : hasDot t₂ = false)
    (he : t₁ ++ '.' :: i₁ = t₂ ++ '.' :: i₂) : t₁ = t₂ ∧ i₁ = i₂ := by
  induction t₁ generalizing t₂ with
  | nil =>
    cases t₂ with
    | nil =>
      simp only [List.nil_append, List.cons.injEq] at he
      exact ⟨rfl, he.2⟩
    | cons c₂ r₂ =>
      simp only [List.nil_append, List.cons_append, List.cons.injEq] at he
      exfalso
      rw [← he.1] at h₂
      simp [hasDot] at h₂
  | cons c₁ r₁ ih =>
    cases t₂ with
    | nil =>
      simp only [List.cons_append, List.nil_append, List.cons.injEq] at he
      exfalso
      rw [he.1] at h₁
      simp [hasDot] at h₁
    | cons c₂ r₂ =>
      simp only [List.cons_append, List.cons.injEq] at he
      obtain ⟨rfl, he2⟩ := he
      have hr₁ : hasDot r₁ = false := by
        simp only [hasDot, List.contains_cons, Bool.or_eq_false_iff] at h₁
        simpa [hasDot] using h₁.2
      have hr₂ : hasDot r₂ = false := by
        simp only [hasDot, List.contains_cons, Bool.or_eq_false_iff] at h₂
        simpa [hasDot] using h₂.2
      obtain ⟨hrt, hri⟩ := ih hr₁ hr₂ he2
      exact ⟨by rw [hrt], hri⟩

/-- `topOf` of a dot-free key. -/
theorem topOf_no_dot {t : Str} (h : hasDot t = false) : topOf t = t := by
  induction t with
  | nil => rfl
  | cons c r ih =>
    simp only [hasDot, List.contains_cons, Bool.or_eq_false_iff] at h
    have hc : ¬c = '.' := by
      intro hc
      subst hc
      simp at h
    have hr : hasDot r = false := by
      simpa [hasDot] using h.2
    simp [topOf, hc, ih hr]

/-- `topOf` of a two-segment dotted key. -/
theorem topOf_append {t : Str} (i : Str) (h : hasDot t = false) :
    topOf (t ++ '.' :: i) = t := by
  induction t with
  | nil => simp [topOf]
  | cons c r ih =>
    simp only [hasDot, List.contains_cons, Bool.or_eq_false_iff] at h
    have hc : ¬c = '.' := by
      intro hc
      subst hc
      simp at h
    have hr : hasDot r = false := by
      simpa [hasDot] using h.2
    simp [topOf, hc, ih hr]

/-- `setKey` on a fresh key appends. -/
theorem setKey_of_not_mem {α : Type} {m : List (Str × α)} {k : Str} (v : α)
    (h : k ∉ m.map Prod.fst) : setKey m k v = m ++ [(k, v)] := by
  induction m with
  | nil => rfl
  | cons p rest ih =>
    simp only [List.map_cons, List.mem_cons, not_or] at h
    have hp : ¬p.1 = k := fun he => h.1 he.symm
    simp [setKey, hp, ih h.2]

/-- `dict(items)` with pairwise-distinct keys is the identity. -/
theorem dictOfItems_nodup {l : List (Str × Val)} (h : (l.map Prod.fst).Nodup) :
    dictOfItems l = l := by
  suffices haux : ∀ (l : List (Str × Val)) (acc : Obj),
      (∀ k ∈ l.map Prod.fst, k ∉ acc.map Prod.fst) → (l.map Prod.fst).Nodup →
      l.foldl (fun a p => setKey a p.1 p.2) acc = acc ++ l by
    have := haux l [] (fun k _ => List.not_mem_nil k) h
    simpa [dictOfItems] using this
  intro l
  induction l with
  | nil =>
    intro acc _ _
    simp
  | cons p rest ih =>
    intro acc hdisj hnd
    simp only [List.map_cons, List.nodup_cons] at hnd
    rw [List.foldl_cons, setKey_of_not_mem p.2
      (hdisj p.1 (List.mem_map.mpr ⟨p, List.mem_cons_self _ _, rfl⟩))]
    have hdisj' : ∀ k ∈ rest.map Prod.fst, k ∉ (acc ++ [p]).map Prod.fst := by
      intro k hk
      simp only [List.map_append, List.mem_append, List.map_cons, List.map_nil,
        List.mem_singleton, not_or]
      refine ⟨hdisj k (by rw [List.map_cons]; exact List.mem_cons_of_mem _ hk), ?_⟩
      intro he
      exact hnd.1 (he ▸ hk)
    rw [ih (acc ++ [p]) hdisj' hnd.2]
    simp

/-- The keys of a tabular-safe object are unique. -/
theorem tabular_safe_nodup {x : Obj} (h : TabularSafe x = true) :
    (x.map Prod.fst).Nodup := by
  simp only [TabularSafe, Bool.and_eq_true, decide_eq_true_eq] at h
  exact h.1

/-- Every tabular-safe object's tail is tabular-safe. -/
theorem tabular_safe_tail {p : Str × Val} {x : Obj}
    (h : TabularSafe (p :: x) = true) : TabularSafe x = true := by
  simp only [TabularSafe, Bool.and_eq_true, decide_eq_true_eq, List.map_cons,
    List.nodup_cons, List.all_cons] at h ⊢
  exact ⟨h.1.2, h.2.2⟩

/-- Shape facts about one field of a tabular-safe object. -/
theorem tabular_safe_entry {x : Obj} {p : Str × Val} (h : TabularSafe x = true)
    (hm : p ∈ x) : hasDot p.1 = false ∧ safeTopVal p.2 = true := by
  simp only [TabularSafe, Bool.and_eq_true, decide_eq_true_eq, List.all_eq_true] at h
  have h2 := h.2 p hm
  simp only [Bool.and_eq_true, Bool.not_eq_true'] at h2
  exact h2

/-- Shape facts about a looked-up field of a tabular-safe object. -/
theorem safe_lookup {x : Obj} {t : Str} {v : Val} (hx : TabularSafe x = true)
    (hl : lookup t x = some v) : hasDot t = false ∧ safeTopVal v = true :=
  tabular_safe_entry hx (lookup_mem hl)

/-- A key containing a dot is never a key of a tabular-safe object. -/
theorem safe_dotted_lookup_none {x : Obj} {t : Str} (hx : TabularSafe x = true)
    (hd : hasDot t = true) : lookup t x = none := by
  cases hlt : lookup t x with
  | none => rfl
  | some v =>
    have h1 := (safe_lookup hx hlt).1
    rw [hd] at h1
    exact absurd h1 (by simp)

/-- Unpacking a safe nested mapping. -/
theorem safe_obj {m : Obj} (h : safeTopVal (Val.obj m) = true) :
    (m.map Prod.fst).Nodup ∧
      ∀ q ∈ m, hasDot q.1 = false ∧ safeInnerVal q.2 = true := by
  simp only [safeTopVal, Bool.and_eq_true, decide_eq_true_eq, List.all_eq_true] at h
  refine ⟨h.1, fun q hq => ?_⟩
  have h2 := h.2 q hq
  simp only [Bool.and_eq_true, Bool.not_eq_true'] at h2
  exact h2

/-- A safe inner value is a string or null. -/
theorem safe_inner_val {v : Val} (h : safeInnerVal v = true) :
    (∃ s, v = Val.str s) ∨ v = Val.null := by
  cases v with
  | str s => exact Or.inl ⟨s, rfl⟩
  | null => exact Or.inr rfl
  | bool b => simp [safeInnerVal] at h
  | num n => simp [safeInnerVal] at h
  | arr l => simp [safeInnerVal] at h
  | obj m => simp [safeInnerVal] at h

/-- A safe top-level value is a string, null, or nested mapping. -/
theorem safe_top_shape {v : Val} (h : safeTopVal v = true) :
    (∃ s, v = Val.str s) ∨ v = Val.null ∨ (∃ m, v = Val.obj m) := by
  cases v with
  | str s => exact Or.inl ⟨s, rfl⟩
  | null => exact Or.inr (Or.inl rfl)
  | obj m => exact Or.inr (Or.inr ⟨m, rfl⟩)
  | bool b => simp [safeTopVal] at h
  | num n => simp [safeTopVal] at h
  | arr l => simp [safeTopVal] at h

/-- A safe top-level string does not look like structured text. -/
theorem safe_str_head {s : Str} (h : safeTopVal (Val.str s) = true) :
    ¬s.head? = some '[' ∧ ¬s.head? = some (Char.ofNat 123) := by
  simp only [safeTopVal, Bool.not_eq_true', Bool.or_eq_false_iff] at h
  exact ⟨by simpa using h.1, by simpa using h.2⟩

/-- Looking a key up across an append. -/
theorem lookup_append {α : Type} (k : Str) (l₁ l₂ : List (Str × α)) :
    lookup k (l₁ ++ l₂) =
      (match lookup k l₁ with
       | some v => some v
       | none => lookup k l₂) := by
  induction l₁ with
  | nil => rfl
  | cons p rest ih =>
    cases p with
    | mk a b =>
      by_cases hk : a = k
      · have h1 : lookup k ((a, b) :: rest) = some b := by
          conv_lhs => unfold lookup
          rw [if_pos hk]
        have h2 : lookup k (((a, b) :: rest) ++ l₂) = some b := by
          rw [List.cons_append]
          conv_lhs => unfold lookup
          rw [if_pos hk]
        rw [h1, h2]
      · have h1 : lookup k ((a, b) :: rest) = lookup k rest := by
          conv_lhs => unfold lookup
          rw [if_neg hk]
        have h2 : lookup k (((a, b) :: rest) ++ l₂) = lookup k (rest ++ l₂) := by
          rw [List.cons_append]
          conv_lhs => unfold lookup
          rw [if_neg hk]
        rw [h1, h2, ih]

/-- Every flattened entry's header belongs (via `topOf`) to the field
it came from. -/
theorem flat_items_key_top {x : Obj} (hx : TabularSafe x = true) {p : Str × Val}
    (hp : p ∈ x) {e : Str × Val} (he : e ∈ flat_items p) : topOf e.1 = p.1 := by
  obtain ⟨hdot, hsafe⟩ := tabular_safe_entry hx hp
  rcases safe_top_shape hsafe with ⟨s, hv⟩ | hv | ⟨m, hv⟩
  · rw [show flat_items p = [(p.1, Val.str s)] by simp [flat_items, hv]] at he
    rcases List.mem_singleton.mp he with rfl
    exact topOf_no_dot hdot
  · rw [show flat_items p = [(p.1, Val.null)] by simp [flat_items, hv]] at he
    rcases List.mem_singleton.mp he with rfl
    exact topOf_no_dot hdot
  · rw [show flat_items p = m.map (fun q => (p.1 ++ '.' :: q.1, q.2)) by
      simp [flat_items, hv]] at he
    rcases List.mem_map.mp he with ⟨q, _, rfl⟩
    exact topOf_append q.1 hdot

/-- The flattened entries of a tabular-safe object have pairwise
distinct keys. -/
theorem items_keys_nodup {x : Obj} (hx : TabularSafe x = true) :
    ((x.flatMap flat_items).map Prod.fst).Nodup := by
  induction x with
  | nil => simp
  | cons p x' ih =>
    have hx' := tabular_safe_tail hx
    rw [List.flatMap_cons, List.map_append]
    refine List.Nodup.append ?_ (ih hx') ?_
    · obtain ⟨hdot, hsafe⟩ := tabular_safe_entry hx (List.mem_cons_self _ _)
      rcases safe_top_shape hsafe with ⟨s, hv⟩ | hv | ⟨m, hv⟩
      · simp [flat_items, hv]
      · simp [flat_items, hv]
      · rw [show flat_items p = m.map (fun q => (p.1 ++ '.' :: q.1, q.2)) by
          simp [flat_items, hv]]
        rw [List.map_map]
        have hmn : (m.map Prod.fst).Nodup :=
          (safe_obj (by rw [← hv]; exact hsafe)).1
        have : (Prod.fst ∘ fun q : Str × Val => (p.1 ++ '.' :: q.1, q.2)) =
            ((fun i => p.1 ++ '.' :: i) ∘ Prod.fst) := rfl
        rw [this, ← List.map_map]
        refine List.Nodup.map ?_ hmn
        intro i₁ i₂ hi
        have := List.append_cancel_left hi
        injection this
    · intro a ha ha'
      rcases List.mem_map.mp ha with ⟨e, he, rfl⟩
      rcases List.mem_map.mp ha' with ⟨e', he', heq⟩
      rcases List.mem_flatMap.mp he' with ⟨p', hp', he'2⟩
      have h1 : topOf e.1 = p.1 := flat_items_key_top hx (List.mem_cons_self _ _) he
      have h2 : topOf e'.1 = p'.1 :=
        flat_items_key_top hx (List.mem_cons_of_mem _ hp') he'2
      rw [heq, h1] at h2
      have hnd := tabular_safe_nodup hx
      simp only [List.map_cons, List.nodup_cons] at hnd
      exact hnd.1 (h2 ▸ List.mem_map.mpr ⟨p', hp', rfl⟩)

/-- For a tabular-safe object, `_flatten_dict` is just the entry
list. -/
theorem flatten_dict_eq_items {x : Obj} (hx : TabularSafe x = true) :
    flatten_dict x = x.flatMap flat_items := by
  unfold flatten_dict
  exact dictOfItems_nodup (items_keys_nodup hx)

/-- A scalar field's value is found in the flattened entries under its
own key. -/
theorem lookup_items_plain {x : Obj} (hx : TabularSafe x = true) {t : Str} {v : Val}
    (hl : lookup t x = some v) (hv : (∃ s, v = Val.str s) ∨ v = Val.null) :
    lookup t (x.flatMap flat_items) = some v := by
  induction x with
  | nil => simp [lookup] at hl
  | cons p x' ih =>
    cases p with
    | mk a b =>
      rw [List.flatMap_cons, lookup_append]
      by_cases hk : a = t
      · have hb : b = v := by
          have h1 : lookup t ((a, b) :: x') = some b := by
            conv_lhs => unfold lookup
            rw [if_pos hk]
          rw [h1] at hl
          injection hl
        subst hb
        rcases hv with ⟨s, rfl⟩ | rfl
        · rw [show lookup t (flat_items (a, Val.str s)) = some (Val.str s) by
            show lookup t [(a, Val.str s)] = some (Val.str s)
            conv_lhs => unfold lookup
            rw [if_pos hk]]
        · rw [show lookup t (flat_items (a, Val.null)) = some Val.null by
            show lookup t [(a, Val.null)] = some Val.null
            conv_lhs => unfold lookup
            rw [if_pos hk]]
      · have hl' : lookup t x' = some v := by
          have h1 : lookup t ((a, b) :: x') = lookup t x' := by
            conv_lhs => unfold lookup
            rw [if_neg hk]
          rw [← h1]
          exact hl
        have hdt : hasDot t = false := (safe_lookup hx hl).1
        have hnone : lookup t (flat_items (a, b)) = none := by
          apply lookup_eq_none_of_not_mem
          intro hmem
          obtain ⟨hda, hsafe⟩ := tabular_safe_entry hx (List.mem_cons_self (a, b) x')
          rcases safe_top_shape hsafe with ⟨s, hbv⟩ | hbv | ⟨m, hbv⟩
          · rw [show flat_items (a, b) = [(a, Val.str s)] by rw [show b = Val.str s from hbv]; rfl] at hmem
            simp at hmem
            exact hk hmem.symm
          · rw [show flat_items (a, b) = [(a, Val.null)] by rw [show b = Val.null from hbv]; rfl] at hmem
            simp at hmem
            exact hk hmem.symm
          · rw [show flat_items (a, b) = m.map (fun q => (a ++ '.' :: q.1, q.2)) by
              rw [show b = Val.obj m from hbv]; rfl] at hmem
            rcases List.mem_map.mp hmem with ⟨e, hme, heq⟩
            rcases List.mem_map.mp hme with ⟨q, _, rfl⟩
            exact no_dot_ne_dotted hdt heq.symm
        rw [hnone]
        exact ih (tabular_safe_tail hx) hl'

/-- Looking up a dotted header in the flattened entries reads the
nested mapping. -/
theorem lookup_items_dotted {x : Obj} (hx : TabularSafe x = true) {t : Str} {m : Obj}
    (hl : lookup t x = some (Val.obj m)) (i : Str) :
    lookup (t ++ '.' :: i) (x.flatMap flat_items) = lookup i m := by
  have hdt : hasDot t = false := (safe_lookup hx hl).1
  induction x with
  | nil => simp [lookup] at hl
  | cons p x' ih =>
    cases p with
    | mk a b =>
      rw [List.flatMap_cons, lookup_append]
      obtain ⟨hda, hsafe⟩ := tabular_safe_entry hx (List.mem_cons_self (a, b) x')
      by_cases hk : a = t
      · have hb : b = Val.obj m := by
          have h1 : lookup t ((a, b) :: x') = some b := by
            conv_lhs => unfold lookup
            rw [if_pos hk]
          rw [h1] at hl
          injection hl
        subst hb
        subst hk
        rw [show flat_items (a, Val.obj m) = m.map (fun q => (a ++ '.' :: q.1, q.2)) by
          simp [flat_items]]
        have hmap : ∀ mm : Obj,
            lookup (a ++ '.' :: i) (mm.map (fun q => (a ++ '.' :: q.1, q.2))) =
              lookup i mm := by
          intro mm
          induction mm with
          | nil => rfl
          | cons q mr ihm =>
            cases q with
            | mk qi qv =>
              by_cases hq : qi = i
              · subst hq
                simp [lookup]
              · have hne : ¬(a ++ '.' :: qi = a ++ '.' :: i) := by
                  intro he
                  have := List.append_cancel_left he
                  injection this with h1 h2
                  exact hq h2
                simp only [List.map_cons]
                conv_lhs => unfold lookup
                rw [if_neg hne]
                conv_rhs => unfold lookup
                rw [if_neg hq]
                exact ihm
        rw [hmap m]
        cases him : lookup i m with
        | some v => rfl
        | none =>
          have hnd := tabular_safe_nodup hx
          simp only [List.map_cons, List.nodup_cons] at hnd
          apply lookup_eq_none_of_not_mem
          intro hmem
          rcases List.mem_map.mp hmem with ⟨e, hme, heq⟩
          rcases List.mem_flatMap.mp hme with ⟨p', hp', he2⟩
          have h2 : topOf e.1 = p'.1 :=
            flat_items_key_top (tabular_safe_tail hx) hp' he2
          rw [heq, topOf_append i hda] at h2
          refine hnd.1 ?_
          rw [show a = p'.1 from h2]
          exact List.mem_map.mpr ⟨p', hp', rfl⟩
      · have hl' : lookup t x' = some (Val.obj m) := by
          have h1 : lookup t ((a, b) :: x') = lookup t x' := by
            conv_lhs => unfold lookup
            rw [if_neg hk]
          rw [← h1]
          exact hl
        have hnone : lookup (t ++ '.' :: i) (flat_items (a, b)) = none := by
          apply lookup_eq_none_of_not_mem
          intro hmem
          rcases safe_top_shape hsafe with ⟨s, hbv⟩ | hbv | ⟨mm, hbv⟩
          · rw [show flat_items (a, b) = [(a, Val.str s)] by rw [show b = Val.str s from hbv]; rfl] at hmem
            simp at hmem
            exact no_dot_ne_dotted hda hmem.symm
          · rw [show flat_items (a, b) = [(a, Val.null)] by rw [show b = Val.null from hbv]; rfl] at hmem
            simp at hmem
            exact no_dot_ne_dotted hda hmem.symm
          · rw [show flat_items (a, b) = mm.map (fun q => (a ++ '.' :: q.1, q.2)) by
              rw [show b = Val.obj mm from hbv]; rfl] at hmem
            rcases List.mem_map.mp hmem with ⟨e, hme, heq⟩
            rcases List.mem_map.mp hme with ⟨q, _, rfl⟩
            have := dotted_inj hda hdt heq
            exact hk this.1
        rw [hnone]
        exact ih (tabular_safe_tail hx) hl'

/-- Membership in a single-row file's header set. -/
theorem mem_csv_headers_iff (flatl : Obj) (h : Str) :
    h ∈ csv_headers [flatl] ↔ h ∈ flatl.map Prod.fst := by
  unfold csv_headers
  rw [List.mem_insertionSort, List.mem_dedup]
  show h ∈ flatl.map Prod.fst ++ [] ↔ h ∈ flatl.map Prod.fst
  rw [List.append_nil]

/-- A single-row file's headers are pairwise distinct. -/
theorem csv_headers_nodup (flatl : Obj) : (csv_headers [flatl]).Nodup := by
  unfold csv_headers
  exact ((List.perm_insertionSort _ _).nodup_iff).mpr (List.nodup_dedup _)

/-- The record's keys are the headers. -/
theorem csv_record_keys (x : Obj) :
    (csv_record x).map Prod.fst = csv_headers [flatten_dict x] := by
  unfold csv_record
  rw [List.map_map]
  exact List.map_id _

/-- Every entry of a tabular-safe object's record is a plain scalar
cell or a dotted inner cell. -/
theorem csv_record_entry {x : Obj} (hx : TabularSafe x = true) {e : Str × Str}
    (he : e ∈ csv_record x) : RecordEntry x e := by
  unfold csv_record at he
  rcases List.mem_map.mp he with ⟨h, hh, rfl⟩
  rw [mem_csv_headers_iff, flatten_dict_eq_items hx] at hh
  have hs : (lookup h (flatten_dict x)).isSome = true := by
    rw [lookup_isSome_iff, flatten_dict_eq_items hx]
    exact hh
  cases hlv : lookup h (flatten_dict x) with
  | none =>
    rw [hlv] at hs
    exact absurd hs (by simp)
  | some v =>
    have hmem : (h, v) ∈ x.flatMap flat_items := by
      rw [← flatten_dict_eq_items hx]
      exact lookup_mem hlv
    rcases List.mem_flatMap.mp hmem with ⟨p, hp, hpe⟩
    obtain ⟨a, b⟩ := p
    obtain ⟨hdp, hsafe⟩ := tabular_safe_entry hx hp
    have hnd := tabular_safe_nodup hx
    have hdp' : hasDot a = false := hdp
    rcases safe_top_shape hsafe with ⟨s, hbv⟩ | hbv | ⟨m, hbv⟩
    · rw [show flat_items (a, b) = [(a, Val.str s)] by
        rw [show b = Val.str s from hbv]; rfl] at hpe
      rcases List.mem_singleton.mp hpe with he2
      have hha : h = a ∧ v = Val.str s := by
        constructor
        · injection he2 with h1 h2
        · injection he2 with h1 h2
      obtain ⟨rfl, rfl⟩ := hha
      left
      refine ⟨hdp', s, ?_, rfl⟩
      have : (h, Val.str s) ∈ x := by
        rw [← show b = Val.str s from hbv]
        exact hp
      exact lookup_eq_of_mem_nodup hnd this
    · rw [show flat_items (a, b) = [(a, Val.null)] by
        rw [show b = Val.null from hbv]; rfl] at hpe
      rcases List.mem_singleton.mp hpe with he2
      have hha : h = a ∧ v = Val.null := by
        constructor
        · injection he2 with h1 h2
        · injection he2 with h1 h2
      obtain ⟨rfl, rfl⟩ := hha
      right
      left
      refine ⟨hdp', ?_, rfl⟩
      have : (h, Val.null) ∈ x := by
        rw [← show b = Val.null from hbv]
        exact hp
      exact lookup_eq_of_mem_nodup hnd this
    · rw [show flat_items (a, b) = m.map (fun q => (a ++ '.' :: q.1, q.2)) by
        rw [show b = Val.obj m from hbv]; rfl] at hpe
      rcases List.mem_map.mp hpe with ⟨q, hq, he2⟩
      obtain ⟨hdq, hqsafe⟩ := (safe_obj (by rw [← show b = Val.obj m from hbv]; exact hsafe)).2 q hq
      have hmn : (m.map Prod.fst).Nodup := (safe_obj (by rw [← show b = Val.obj m from hbv]; exact hsafe)).1
      have hha : h = a ++ '.' :: q.1 ∧ v = q.2 := by
        constructor
        · injection he2 with h1 h2
          exact h1.symm
        · injection he2 with h1 h2
          exact h2.symm
      obtain ⟨rfl, rfl⟩ := hha
      right
      right
      refine ⟨a, q.1, m, rfl, hdp', hdq, ?_, ?_⟩
      · have : (a, Val.obj m) ∈ x := by
          rw [← show b = Val.obj m from hbv]
          exact hp
        exact lookup_eq_of_mem_nodup hnd this
      · have hqlk : lookup q.1 m = some q.2 := lookup_eq_of_mem_nodup hmn (by
          obtain ⟨qi, qv⟩ := q
          exact hq)
        rcases safe_inner_val hqsafe with ⟨s, hqs⟩ | hqs
        · left
          refine ⟨s, by rw [← hqs]; exact hqlk, ?_⟩
          show csvCell q.2 = s
          rw [hqs]
          rfl
        · right
          refine ⟨by rw [← hqs]; exact hqlk, ?_⟩
          show csvCell q.2 = []
          rw [hqs]
          rfl

/-- An empty cell leaves the data unchanged. -/
theorem step_empty (J : Str → Option Val) (data : Obj) (h : Str) :
    cleanRowStep J data h [] = some data := rfl

/-- A plain header with a non-empty, non-structured cell stores the
literal string. -/
theorem step_plain {J : Str → Option Val} {data : Obj} {h c : Str}
    (hd : hasDot h = false) (hc : c ≠ [])
    (h1 : ¬c.head? = some '[') (h2 : ¬c.head? = some (Char.ofNat 123)) :
    cleanRowStep J data h c = some (setKey data h (.str c)) := by
  unfold cleanRowStep
  rw [if_neg hc, if_neg (by simp [hd]), if_neg (by simp [h1, h2])]

/-- A dotted header with a non-empty cell goes through path
insertion. -/
theorem step_dotted {J : Str → Option Val} {data : Obj} {h c : Str}
    (hd : hasDot h = true) (hc : c ≠ []) :
    cleanRowStep J data h c = insertPath data (splitDot h) c := by
  unfold cleanRowStep
  rw [if_neg hc, if_pos (by simp [hd])]

/-- Two-segment path insertion, by the shape of the existing value. -/
theorem insertPath_two (data : Obj) (t i : Str) (c : Str) :
    insertPath data [t, i] c =
      (match lookup t data with
       | none => some (setKey data t (.obj [(i, .str c)]))
       | some (Val.obj inner) => some (setKey data t (.obj (setKey inner i (.str c))))
       | some _ => none) := by
  cases hl : lookup t data with
  | none => simp [insertPath, hl, setKey]
  | some v =>
    cases v with
    | obj inner => simp [insertPath, hl]
    | null => simp [insertPath, hl]
    | bool b => simp [insertPath, hl]
    | num n => simp [insertPath, hl]
    | str s => simp [insertPath, hl]
    | arr l => simp [insertPath, hl]

/-- Extending the processed-header set with a header that carries no
data (an empty cell) preserves the invariant. -/
theorem INV_snoc {x data : Obj} {S : List Str} {h : Str}
    (hscal : ∀ s, lookup h x = some (Val.str s) → s = [])
    (hdotted : ∀ t i m s, h = t ++ '.' :: i → lookup t x = some (Val.obj m) →
      lookup i m = some (Val.str s) → s = [])
    (hinv : INV x data S) : INV x data (S ++ [h]) := by
  intro t
  obtain ⟨h1, h2, h3, h4⟩ := hinv t
  refine ⟨?_, h2, h3, ?_⟩
  · intro s hlk
    rw [h1 s hlk]
    by_cases hth : t = h
    · subst hth
      have hse : s = [] := hscal s hlk
      subst hse
      simp
    · by_cases hts : t ∈ S ∧ s ≠ []
      · rw [if_pos hts, if_pos ⟨List.mem_append.mpr (Or.inl hts.1), hts.2⟩]
      · rw [if_neg hts, if_neg ?_]
        rintro ⟨hm, hs⟩
        rcases List.mem_append.mp hm with hm | hm
        · exact hts ⟨hm, hs⟩
        · exact hth (List.mem_singleton.mp hm)
  · intro m hlk
    rcases h4 m hlk with ⟨hnone, hno⟩ | ⟨d, hd, ⟨iw, sw, hiw, hsw, hmw⟩, hexp⟩
    · left
      refine ⟨hnone, ?_⟩
      intro i s hi hs hmem
      rcases List.mem_append.mp hmem with hmem | hmem
      · exact hno i s hi hs hmem
      · exact hs (hdotted t i m s (List.mem_singleton.mp hmem).symm hlk hi)
    · right
      refine ⟨d, hd, ⟨iw, sw, hiw, hsw, List.mem_append.mpr (Or.inl hmw)⟩, ?_⟩
      intro i
      rw [hexp i]
      unfold innerExp
      cases him : lookup i m with
      | none => rfl
      | some v =>
        cases v with
        | str s =>
          show (if (t ++ '.' :: i) ∈ S ∧ s ≠ [] then some (Val.str s) else none) =
            (if (t ++ '.' :: i) ∈ S ++ [h] ∧ s ≠ [] then some (Val.str s) else none)
          by_cases hth : (t ++ '.' :: i) = h
          · have hse : s = [] := hdotted t i m s hth.symm hlk him
            subst hse
            simp
          · by_cases hts : (t ++ '.' :: i) ∈ S ∧ s ≠ []
            · rw [if_pos hts, if_pos ⟨List.mem_append.mpr (Or.inl hts.1), hts.2⟩]
            · rw [if_neg hts, if_neg ?_]
              rintro ⟨hm2, hs2⟩
              rcases List.mem_append.mp hm2 with hm2 | hm2
              · exact hts ⟨hm2, hs2⟩
              · exact hth (List.mem_singleton.mp hm2)
        | null => rfl
        | bool b => rfl
        | num n => rfl
        | obj mm => rfl
        | arr l => rfl

/-- At a key absent from the source object, the invariant is just
"absent from the data". -/
theorem InvAt_of_none {x data : Obj} {S : List Str} {t : Str}
    (hnone_x : lookup t x = none) (hnone_d : lookup t data = none) :
    InvAt x data S t := by
  refine ⟨?_, ?_, fun _ => hnone_d, ?_⟩
  · intro s hlk
    rw [hnone_x] at hlk
    exact absurd hlk (by simp)
  · intro hlk
    rw [hnone_x] at hlk
    exact absurd hlk (by simp)
  · intro m hlk
    rw [hnone_x] at hlk
    simp at hlk

/-- The invariant is preserved at a key the step did not touch,
provided the processed header is irrelevant to that key. -/
theorem InvAt_untouched {x data data' : Obj} {S : List Str} {h t : Str}
    (hdata : lookup t data' = lookup t data)
    (hmem_t : t ∈ S ++ [h] ↔ t ∈ S)
    (hmem_dotted : ∀ i : Str, (t ++ '.' :: i) ∈ S ++ [h] ↔ (t ++ '.' :: i) ∈ S)
    (hat : InvAt x data S t) : InvAt x data' (S ++ [h]) t := by
  obtain ⟨h1, h2, h3, h4⟩ := hat
  refine ⟨?_, fun hlk => by rw [hdata]; exact h2 hlk,
    fun hlk => by rw [hdata]; exact h3 hlk, ?_⟩
  · intro s hlk
    rw [hdata, h1 s hlk]
    by_cases hts : t ∈ S ∧ s ≠ []
    · rw [if_pos hts, if_pos ⟨hmem_t.mpr hts.1, hts.2⟩]
    · rw [if_neg hts, if_neg (fun hc => hts ⟨hmem_t.mp hc.1, hc.2⟩)]
  · intro m hlk
    rcases h4 m hlk with ⟨hnone, hno⟩ | ⟨d, hd, ⟨iw, sw, hiw, hsw, hmw⟩, hexp⟩
    · left
      exact ⟨by rw [hdata]; exact hnone,
        fun i s hi hs hmem => hno i s hi hs ((hmem_dotted i).mp hmem)⟩
    · right
      refine ⟨d, by rw [hdata]; exact hd,
        ⟨iw, sw, hiw, hsw, (hmem_dotted iw).mpr hmw⟩, ?_⟩
      intro i
      rw [hexp i]
      unfold innerExp
      cases him : lookup i m with
      | none => rfl
      | some v =>
        cases v with
        | str s =>
          show (if (t ++ '.' :: i) ∈ S ∧ s ≠ [] then some (Val.str s) else none) =
            (if (t ++ '.' :: i) ∈ S ++ [h] ∧ s ≠ [] then some (Val.str s) else none)
          by_cases hts : (t ++ '.' :: i) ∈ S ∧ s ≠ []
          · rw [if_pos hts, if_pos ⟨(hmem_dotted i).mpr hts.1, hts.2⟩]
          · rw [if_neg hts, if_neg (fun hc => hts ⟨(hmem_dotted i).mp hc.1, hc.2⟩)]
        | null => rfl
        | bool b => rfl
        | num n => rfl
        | obj mm => rfl
        | arr l => rfl

/-- Appending a different element does not change membership. -/
theorem mem_snoc_iff_of_ne {t h : Str} {S : List Str} (hne : t ≠ h) :
    t ∈ S ++ [h] ↔ t ∈ S := by
  rw [List.mem_append, List.mem_singleton]
  exact ⟨fun hc => hc.resolve_right hne, Or.inl⟩

/-- One row-cleaning step on a record entry of a tabular-safe object
succeeds and preserves the invariant, marking the header processed. -/
theorem step_inv (J : Str → Option Val) {x : Obj} (hx : TabularSafe x = true)
    {h c : Str} {S : List Str} {data : Obj}
    (hent : RecordEntry x (h, c)) (hinv : INV x data S) :
    ∃ d', cleanRowStep J data h c = some d' ∧ INV x d' (S ++ [h]) := by
  rcases hent with ⟨hdot, s, hlk, hcs⟩ | ⟨hdot, hlk, hcs⟩ |
    ⟨t₀, i₀, m₀, hkey, hdt, hdi, hlkt, hin⟩
  · -- plain string field
    have hcs' : s = c := hcs.symm
    subst hcs'
    by_cases hse : s = []
    · subst hse
      refine ⟨data, step_empty J data h, INV_snoc ?_ ?_ hinv⟩
      · intro s' hlk'
        rw [hlk] at hlk'
        injection hlk' with he
        injection he with he2
        exact he2.symm
      · intro t i m s' heq hlt him
        exact absurd heq (no_dot_ne_dotted hdot)
    · have hsafe := (safe_lookup hx hlk).2
      obtain ⟨hh1, hh2⟩ := safe_str_head hsafe
      refine ⟨setKey data h (.str s), step_plain hdot hse hh1 hh2, ?_⟩
      intro t
      by_cases hth : t = h
      · subst hth
        refine ⟨?_, ?_, ?_, ?_⟩
        · intro s' hlk'
          rw [hlk] at hlk'
          injection hlk' with he
          injection he with he2
          subst he2
          rw [lookup_setKey_self]
          rw [if_pos ⟨List.mem_append.mpr (Or.inr (List.mem_singleton.mpr rfl)), hse⟩]
        · intro hlk'
          rw [hlk] at hlk'
          simp at hlk'
        · intro hlk'
          rw [hlk] at hlk'
          simp at hlk'
        · intro m hlk'
          rw [hlk] at hlk'
          simp at hlk'
      · cases hlx : lookup t x with
        | none =>
          refine InvAt_of_none hlx ?_
          rw [lookup_setKey_other data h t _ hth]
          exact (hinv t).2.2.1 hlx
        | some v =>
          refine InvAt_untouched (lookup_setKey_other data h t _ hth)
            (mem_snoc_iff_of_ne hth) ?_ (hinv t)
          intro i
          exact mem_snoc_iff_of_ne (fun he => no_dot_ne_dotted hdot he.symm)
  · -- plain null field
    have hcs' : c = [] := hcs
    subst hcs'
    refine ⟨data, step_empty J data h, INV_snoc ?_ ?_ hinv⟩
    · intro s' hlk'
      rw [hlk] at hlk'
      simp at hlk'
    · intro t i m s' heq hlt him
      exact absurd heq (no_dot_ne_dotted hdot)
  · -- dotted field of a nested mapping
    have hkey' : h = t₀ ++ '.' :: i₀ := hkey
    subst hkey'
    rcases hin with ⟨s₀, him, hcs⟩ | ⟨him, hcs⟩
    · -- inner value is a string
      have hcs' : s₀ = c := hcs.symm
      subst hcs'
      by_cases hse : s₀ = []
      · subst hse
        refine ⟨data, step_empty J data _, INV_snoc ?_ ?_ hinv⟩
        · intro s' hlk'
          rw [safe_dotted_lookup_none hx (hasDot_append t₀ i₀)] at hlk'
          exact absurd hlk' (by simp)
        · intro t i m s' heq hlt him'
          have hdt' : hasDot t = false := (safe_lookup hx hlt).1
          obtain ⟨het, hei⟩ := dotted_inj hdt hdt' heq
          subst het
          subst hei
          rw [hlkt] at hlt
          injection hlt with hm
          injection hm with hm2
          subst hm2
          rw [him] at him'
          injection him' with hs
          injection hs with hs2
          exact hs2.symm
      · -- the actual insertion
        have hstep : cleanRowStep J data (t₀ ++ '.' :: i₀) s₀ =
            insertPath data [t₀, i₀] s₀ := by
          rw [step_dotted (hasDot_append t₀ i₀) hse, splitDot_append hdt hdi]
        have hinner : ∀ (d' : Obj),
            (∀ i : Str, lookup i d' = innerExp m₀ (S ++ [t₀ ++ '.' :: i₀]) t₀ i) →
            lookup t₀ (setKey data t₀ (Val.obj d')) = some (Val.obj d') →
            INV x (setKey data t₀ (Val.obj d')) (S ++ [t₀ ++ '.' :: i₀]) := by
          intro d' hd'exp hd'lk
          intro t
          by_cases hth : t = t₀
          · subst hth
            refine ⟨?_, ?_, ?_, ?_⟩
            · intro s' hlk'
              rw [hlkt] at hlk'
              simp at hlk'
            · intro hlk'
              rw [hlkt] at hlk'
              simp at hlk'
            · intro hlk'
              rw [hlkt] at hlk'
              simp at hlk'
            · intro m hlk'
              rw [hlkt] at hlk'
              injection hlk' with hm
              injection hm with hm2
              subst hm2
              right
              refine ⟨d', hd'lk, ⟨i₀, s₀, him, hse,
                List.mem_append.mpr (Or.inr (List.mem_singleton.mpr rfl))⟩, hd'exp⟩
          · cases hlx : lookup t x with
            | none =>
              refine InvAt_of_none hlx ?_
              rw [lookup_setKey_other data t₀ t _ hth]
              exact (hinv t).2.2.1 hlx
            | some v =>
              have hdt2 : hasDot t = false := (safe_lookup hx hlx).1
              refine InvAt_untouched (lookup_setKey_other data t₀ t _ hth)
                (mem_snoc_iff_of_ne (no_dot_ne_dotted hdt2)) ?_ (hinv t)
              intro i
              refine mem_snoc_iff_of_ne ?_
              intro he
              exact hth (dotted_inj hdt2 hdt he).1
        have hexp_new : ∀ (dblock : Str → Option Val),
            (dblock i₀ = some (Val.str s₀)) →
            (∀ i : Str, i ≠ i₀ → dblock i = innerExp m₀ S t₀ i) →
            ∀ i : Str, dblock i = innerExp m₀ (S ++ [t₀ ++ '.' :: i₀]) t₀ i := by
          intro dblock hat hother i
          by_cases hii : i = i₀
          · subst hii
            rw [hat]
            unfold innerExp
            rw [him]
            show some (Val.str s₀) =
              if t₀ ++ '.' :: i ∈ S ++ [t₀ ++ '.' :: i] ∧ s₀ ≠ [] then some (Val.str s₀)
              else none
            exact (if_pos ⟨List.mem_append.mpr (Or.inr (List.mem_singleton.mpr rfl)),
              hse⟩).symm
          · rw [hother i hii]
            unfold innerExp
            cases him2 : lookup i m₀ with
            | none => rfl
            | some v =>
              cases v with
              | str s' =>
                show (if (t₀ ++ '.' :: i) ∈ S ∧ s' ≠ [] then some (Val.str s') else none) =
                  (if (t₀ ++ '.' :: i) ∈ S ++ [t₀ ++ '.' :: i₀] ∧ s' ≠ []
                   then some (Val.str s') else none)
                have hmem : (t₀ ++ '.' :: i) ∈ S ++ [t₀ ++ '.' :: i₀] ↔
                    (t₀ ++ '.' :: i) ∈ S := by
                  refine mem_snoc_iff_of_ne ?_
                  intro he
                  exact hii (dotted_inj hdt hdt he).2
                by_cases hts : (t₀ ++ '.' :: i) ∈ S ∧ s' ≠ []
                · rw [if_pos hts, if_pos ⟨hmem.mpr hts.1, hts.2⟩]
                · rw [if_neg hts, if_neg (fun hc => hts ⟨hmem.mp hc.1, hc.2⟩)]
              | null => rfl
              | bool b => rfl
              | num n => rfl
              | obj mm => rfl
              | arr l => rfl
        rcases (hinv t₀).2.2.2 m₀ hlkt with ⟨hnone, hno⟩ | ⟨d, hd, hwit, hexp⟩
        · refine ⟨setKey data t₀ (Val.obj [(i₀, Val.str s₀)]), ?_, ?_⟩
          · rw [hstep, insertPath_two, hnone]
          · refine hinner [(i₀, Val.str s₀)] ?_ (lookup_setKey_self data t₀ _)
            refine hexp_new (fun i => lookup i [(i₀, Val.str s₀)]) ?_ ?_
            · simp [lookup]
            · intro i hii
              have h1 : lookup i [(i₀, Val.str s₀)] = none := by
                have h2 : ¬i₀ = i := fun he => hii he.symm
                simp [lookup, h2]
              show lookup i [(i₀, Val.str s₀)] = innerExp m₀ S t₀ i
              rw [h1]
              unfold innerExp
              cases him2 : lookup i m₀ with
              | none => rfl
              | some v =>
                cases v with
                | str s' =>
                  show none =
                    (if (t₀ ++ '.' :: i) ∈ S ∧ s' ≠ [] then some (Val.str s') else none)
                  by_cases hs' : s' = []
                  · subst hs'
                    rw [if_neg (fun hc => hc.2 rfl)]
                  · rw [if_neg (fun hc => hno i s' him2 hs' hc.1)]
                | null => rfl
                | bool b => rfl
                | num n => rfl
                | obj mm => rfl
                | arr l => rfl
        · refine ⟨setKey data t₀ (Val.obj (setKey d i₀ (Val.str s₀))), ?_, ?_⟩
          · rw [hstep, insertPath_two, hd]
          · refine hinner (setKey d i₀ (Val.str s₀)) ?_ (lookup_setKey_self data t₀ _)
            refine hexp_new (fun i => lookup i (setKey d i₀ (Val.str s₀))) ?_ ?_
            · exact lookup_setKey_self d i₀ _
            · intro i hii
              show lookup i (setKey d i₀ (Val.str s₀)) = innerExp m₀ S t₀ i
              rw [lookup_setKey_other d i₀ i _ hii]
              exact hexp i
    · -- inner value is null: the cell is empty
      have hcs' : c = [] := hcs
      subst hcs'
      refine ⟨data, step_empty J data _, INV_snoc ?_ ?_ hinv⟩
      · intro s' hlk'
        rw [safe_dotted_lookup_none hx (hasDot_append t₀ i₀)] at hlk'
        exact absurd hlk' (by simp)
      · intro t i m s' heq hlt him'
        have hdt' : hasDot t = false := (safe_lookup hx hlt).1
        obtain ⟨het, hei⟩ := dotted_inj hdt hdt' heq
        subst het
        subst hei
        rw [hlkt] at hlt
        injection hlt with hm
        injection hm with hm2
        subst hm2
        rw [him] at him'
        exact absurd him' (by simp)

/-- Looking a key up in a filtered association list with unique keys. -/
theorem lookup_filter {α : Type} (P : Str × α → Bool) {k : Str} {l : List (Str × α)}
    (hn : (l.map Prod.fst).Nodup) :
    lookup k (l.filter P) =
      (lookup k l).bind (fun v => if P (k, v) then some v else none) := by
  induction l with
  | nil => rfl
  | cons p rest ih =>
    cases p with
    | mk a b =>
      simp only [List.map_cons, List.nodup_cons] at hn
      by_cases hak : a = k
      · subst hak
        have hrest : lookup a (rest.filter P) = none := by
          refine lookup_eq_none_of_not_mem ?_
          intro hmem
          rcases List.mem_map.mp hmem with ⟨q, hq, hq2⟩
          exact hn.1 (hq2 ▸ List.mem_map.mpr ⟨q, List.mem_of_mem_filter hq, rfl⟩)
        cases hP : P (a, b) with
        | true =>
          rw [List.filter_cons_of_pos hP]
          conv_lhs => unfold lookup
          rw [if_pos rfl]
          conv_rhs => unfold lookup
          rw [if_pos rfl]
          show some b = if P (a, b) = true then some b else none
          rw [if_pos hP]
        | false =>
          rw [List.filter_cons_of_neg (by simp [hP]), hrest]
          conv_rhs => unfold lookup
          rw [if_pos rfl]
          show none = if P (a, b) = true then some b else none
          rw [if_neg (by simp [hP])]
      · cases hP : P (a, b) with
        | true =>
          rw [List.filter_cons_of_pos hP]
          conv_lhs => unfold lookup
          rw [if_neg hak]
          conv_rhs => unfold lookup
          rw [if_neg hak]
          exact ih hn.2
        | false =>
          rw [List.filter_cons_of_neg (by simp [hP])]
          conv_rhs => unfold lookup
          rw [if_neg hak]
          exact ih hn.2

/-- A scalar field's key is among the CSV headers. -/
theorem header_plain {x : Obj} (hx : TabularSafe x = true) {t : Str} {v : Val}
    (hl : lookup t x = some v) (hv : (∃ s, v = Val.str s) ∨ v = Val.null) :
    t ∈ csv_headers [flatten_dict x] := by
  rw [mem_csv_headers_iff, flatten_dict_eq_items hx]
  exact List.mem_map.mpr ⟨(t, v), lookup_mem (lookup_items_plain hx hl hv), rfl⟩

/-- Every inner key of a nested mapping contributes a dotted CSV header. -/
theorem header_dotted {x : Obj} (hx : TabularSafe x = true) {t : Str} {m : Obj}
    (hl : lookup t x = some (Val.obj m)) {i : Str} {w : Val}
    (hw : lookup i m = some w) :
    (t ++ '.' :: i) ∈ csv_headers [flatten_dict x] := by
  rw [mem_csv_headers_iff, flatten_dict_eq_items hx]
  have h2 : lookup (t ++ '.' :: i) (x.flatMap flat_items) = some w := by
    rw [lookup_items_dotted hx hl i]
    exact hw
  exact List.mem_map.mpr ⟨(t ++ '.' :: i, w), lookup_mem h2, rfl⟩

/-- The invariant holds at the start: empty data, no headers processed. -/
theorem INV_init (x : Obj) : INV x [] [] := by
  intro t
  refine ⟨?_, fun _ => rfl, fun _ => rfl, fun m _ => Or.inl ⟨rfl, ?_⟩⟩
  · intro s _
    rw [if_neg (by simp : ¬(t ∈ ([] : List Str) ∧ s ≠ []))]
    rfl
  · intro i s _ _ hmem
    simp at hmem

/-- Folding the row-cleaning step over record entries of a tabular-safe
object never fails and extends the processed-header set. -/
theorem fold_inv (J : Str → Option Val) {x : Obj} (hx : TabularSafe x = true) :
    ∀ (E : List (Str × Str)) (S : List Str) (data : Obj),
      (∀ e ∈ E, RecordEntry x e) → INV x data S →
      ∃ D, E.foldlM (fun d p => cleanRowStep J d p.1 p.2) data = some D ∧
        INV x D (S ++ E.map Prod.fst) := by
  intro E
  induction E with
  | nil =>
    intro S data _ hinv
    exact ⟨data, rfl, by simpa using hinv⟩
  | cons e E' ih =>
    intro S data hent hinv
    obtain ⟨h, c⟩ := e
    obtain ⟨d', hstep, hinv'⟩ :=
      step_inv J hx (hent (h, c) (List.mem_cons_self _ _)) hinv
    obtain ⟨D, hD, hinvD⟩ := ih (S ++ [h]) d'
      (fun e' he' => hent e' (List.mem_cons_of_mem _ he')) hinv'
    refine ⟨D, ?_, ?_⟩
    · have hfold : ((h, c) :: E').foldlM (fun d p => cleanRowStep J d p.1 p.2) data
          = (cleanRowStep J data h c).bind
              (fun d₀ => E'.foldlM (fun d p => cleanRowStep J d p.1 p.2) d₀) := rfl
      rw [hfold, hstep]
      exact hD
    · have heq : S ++ ((h, c) :: E').map Prod.fst = (S ++ [h]) ++ E'.map Prod.fst := by
        simp
      rw [heq]
      exact hinvD

/-- C4 counterexample: a purely scalar Reduced Object with a numeric
field does NOT round-trip to an equal mapping — the cell is written as
`str(7)` and read back as the string "7", so the claimed equality (up
to dropping empty/null fields, of which this object has none) fails. -/
theorem netbox_c4_counterexample :
    rt J0 [(strL "a", Val.num 7)] = some [(strL "a", Val.str (strL "7"))] ∧
    ¬ MapEqv [(strL "a", Val.str (strL "7"))] [(strL "a", Val.num 7)] := by
  refine ⟨rfl, fun hq => ?_⟩
  have h2 : Val.str (strL "7") = Val.num 7 := hq (strL "a")
  simp at h2

/-- C4 (amended): for a tabular-safe Reduced Object — unique dot-free
keys, values that are non-JSON-shaped strings, nulls, or one-level
nested mappings of dot-free keys to strings and nulls — the
flatten/CSV-cell/row-clean round trip always succeeds, and the
reconstructed mapping equals (as a two-level mapping, independent of
field order and of the JSON parser) the source object with empty-string
and null fields removed at both levels, empty nested mappings removed
with them. -/
theorem netbox_c4_amended (J : Str → Option Val) (x : Obj)
    (hx : TabularSafe x = true) :
    ∃ res, rt J x = some res ∧ MapEqv res (dropEmpties x) := by
  obtain ⟨D, hD, hinv⟩ := fold_inv J hx (csv_record x) [] []
    (fun e he => csv_record_entry hx he) (INV_init x)
  have hH : (([] : List Str) ++ (csv_record x).map Prod.fst)
      = csv_headers [flatten_dict x] := by
    rw [List.nil_append, csv_record_keys]
  rw [hH] at hinv
  refine ⟨D, hD, ?_⟩
  intro k
  have hdrop : lookup k (dropEmpties x) = (lookup k x).bind (dropEmptyVal k) := by
    unfold dropEmpties
    exact lookup_filterMap_keyed (tabular_safe_nodup hx)
  cases hkx : lookup k x with
  | none =>
    have h1 : lookup k D = none := (hinv k).2.2.1 hkx
    rw [h1, hdrop, hkx]
    exact trivial
  | some v =>
    rcases safe_top_shape (safe_lookup hx hkx).2 with ⟨s, rfl⟩ | rfl | ⟨m, rfl⟩
    · have h1 := (hinv k).1 s hkx
      cases s with
      | nil =>
        rw [if_neg (fun hc => hc.2 rfl)] at h1
        rw [h1, hdrop, hkx]
        exact trivial
      | cons a r =>
        have hk_mem : k ∈ csv_headers [flatten_dict x] :=
          header_plain hx hkx (Or.inl ⟨a :: r, rfl⟩)
        rw [if_pos ⟨hk_mem, by simp⟩] at h1
        have h2 : lookup k (dropEmpties x) = some (Val.str (a :: r)) := by
          rw [hdrop, hkx]
          rfl
        rw [h1, h2]
        exact rfl
    · have h1 : lookup k D = none := (hinv k).2.1 hkx
      rw [h1, hdrop, hkx]
      exact trivial
    · obtain ⟨hmn, hmq⟩ := safe_obj (safe_lookup hx hkx).2
      rcases (hinv k).2.2.2 m hkx with ⟨h1, hno⟩ | ⟨d, hd, ⟨i₀, s₀, hi₀, hs₀, _⟩, hexp⟩
      · have hfil : m.filter keepInner = [] := by
          rw [List.filter_eq_nil_iff]
          intro q hq hP
          obtain ⟨qi, qv⟩ := q
          rcases safe_inner_val (hmq (qi, qv) hq).2 with ⟨s, rfl⟩ | rfl
          · cases s with
            | nil =>
              have hP' : (false : Bool) = true := hP
              simp at hP'
            | cons a r =>
              have hlq : lookup qi m = some (Val.str (a :: r)) :=
                lookup_eq_of_mem_nodup hmn hq
              exact absurd (header_dotted hx hkx hlq)
                (hno qi (a :: r) hlq (by simp))
          · have hP' : (false : Bool) = true := hP
            simp at hP'
        have h2 : lookup k (dropEmpties x) = none := by
          rw [hdrop, hkx]
          show (if (m.filter keepInner).isEmpty then none
            else some (Val.obj (m.filter keepInner))) = none
          rw [hfil]
          rfl
        rw [h1, h2]
        exact trivial
      · have hkeep : keepInner (i₀, Val.str s₀) = true := by
          cases s₀ with
          | nil => exact absurd rfl hs₀
          | cons a r => rfl
        have hne : (m.filter keepInner).isEmpty = false :=
          List.isEmpty_eq_false.mpr
            (List.ne_nil_of_mem (List.mem_filter.mpr ⟨lookup_mem hi₀, hkeep⟩))
        have h2 : lookup k (dropEmpties x) = some (Val.obj (m.filter keepInner)) := by
          rw [hdrop, hkx]
          show (if (m.filter keepInner).isEmpty then none
            else some (Val.obj (m.filter keepInner)))
            = some (Val.obj (m.filter keepInner))
          rw [hne]
          rfl
        rw [hd, h2]
        intro i
        rw [hexp i, lookup_filter keepInner hmn]
        cases him : lookup i m with
        | none =>
          unfold innerExp
          rw [him]
          rfl
        | some w =>
          rcases safe_inner_val (hmq (i, w) (lookup_mem him)).2 with ⟨s, rfl⟩ | rfl
          · have hmemH : (k ++ '.' :: i) ∈ csv_headers [flatten_dict x] :=
              header_dotted hx hkx him
            unfold innerExp
            rw [him]
            show (if (k ++ '.' :: i) ∈ csv_headers [flatten_dict x] ∧ s ≠ []
                then some (Val.str s) else none) =
              (if keepInner (i, Val.str s) = true then some (Val.str s) else none)
            cases s with
            | nil =>
              rw [if_neg (fun hc => hc.2 rfl)]
              rfl
            | cons a r =>
              rw [if_pos ⟨hmemH, by simp⟩]
              rfl
          · unfold innerExp
            rw [him]
            rfl

/-- C4 witness: the amended round trip at the concrete two-level object
`x0`, whose tabular safety is decided by evaluation. -/
theorem netbox_c4_witness :
    TabularSafe x0 = true ∧ ∃ res, rt J0 x0 = some res ∧ MapEqv res (dropEmpties x0) :=
  ⟨by decide, netbox_c4_amended J0 x0 (by decide)⟩
